import Mathlib

/-!
Views over a circular byte buffer (`ringslice`).

A shallow embedding of `src/src/ringslice.h` and `src/src/ringslice.c`.

Modelling conventions.

* `uint8_t` values are natural numbers; the array behind `buf` is the list of
  its bytes, and a pointer into it is the integer offset from `&buf[0]`
  (so `buf_start` is `0` and `buf_end` is `buf_size`).
* `ringslice_cnt_t` (`int32_t`) and `int` values are integers. A sum or
  difference of `ringslice_cnt_t` values that the code forms from the fields
  of a view and an index (`ringslice_len`, `ringslice_nth_byte`,
  `ringslice_subslice`) is reduced to 32 bits by `wrap32`. The operator `%`
  of C truncates towards zero: it is `Int.tmod`.
* A `char const *` argument is the list of the bytes stored from the pointer
  on: the characters of the string, its terminator `0`, and whatever the array
  holds after it. The signedness of plain `char` is a parameter
  `char_signed` of the operations that read a plain `char`
  (`ringslice_strstr` and its caller); `ringslice_strcmp` reads the string
  through a `uint8_t const *`.
* A failed contract check, and a read outside an array, end the computation:
  operations that can do either return `Except Fault _`.
* The operations only read through `me`, so each is first embedded as a
  function of the input view. For the frame property they are embedded a
  second time, as computations on the memory behind `me` (`Mem`, the
  definitions with the suffix `_st`), and shown to agree with the functions.
-/

namespace Ringslice

/-- Ways in which an operation ends without a value. -/
inductive Fault where
  /-- A `DBC_*` check with this label failed. -/
  | dbc (label : Nat)
  /-- A byte was read outside the array (undefined behaviour in C). -/
  | oob
  /-- The iteration budget given to a loop was used up; the budget belongs
  to the embedding, not to the program. -/
  | fuel
deriving DecidableEq, Repr

/-- Modelled from the spec: `dbc_assert.h` is not among the sources. A
precondition check `DBC_REQUIRE(label, cond)` / `DBC_MODULE_REQUIRE(module,
label, cond)` reports a contract violation identified by its numeric label and
halts the calling context when `cond` is false. -/
def DBC_REQUIRE (label : Nat) (cond : Bool) : Except Fault Unit :=
  if cond then .ok () else .error (.dbc label)

/-- Modelled from the spec: `dbc_assert.h` is not among the sources. A
postcondition check `DBC_ENSURE(label, cond)`, as `DBC_REQUIRE`. -/
def DBC_ENSURE (label : Nat) (cond : Bool) : Except Fault Unit :=
  if cond then .ok () else .error (.dbc label)

/-- Modelled from the spec: `dbc_assert.h` is not among the sources. A
general check `DBC_ASSERT(label, cond)`, as `DBC_REQUIRE`. -/
def DBC_ASSERT (label : Nat) (cond : Bool) : Except Fault Unit :=
  if cond then .ok () else .error (.dbc label)

/-- The structure `ringslice_t`. -/
structure ringslice_t where
  /-- The bytes of the array `buf` points to. -/
  buf : List Nat
  /-- Size of the array. -/
  buf_size : Int
  /-- Index of the first element. -/
  first : Int
  /-- Index of the empty place after the last element. -/
  last : Int
deriving DecidableEq, Repr

/-- Reading `arr[i]`: the byte at offset `i`, a fault outside the array. -/
def load (arr : List Nat) (i : Int) : Except Fault Nat :=
  if 0 ≤ i then
    match arr[i.toNat]? with
    | some b => .ok b
    | none => .error .oob
  else .error .oob

/-- The value a variable of type `int32_t` keeps of the integer `x`: `x`
reduced modulo `2^32` into `[-2^31, 2^31)`. -/
def wrap32 (x : Int) : Int := (x + 2147483648) % 4294967296 - 2147483648

/-- The integer `x` is a value of the type `int32_t`. -/
def fits32 (x : Int) : Prop := -2147483648 ≤ x ∧ x ≤ 2147483647

instance (x : Int) : Decidable (fits32 x) := by
  unfold fits32; infer_instance

/-- The function `ringslice_initializer`. The check with label 1 (`buf` is not
null) always passes: the buffer is given by its contents. -/
def ringslice_initializer (buf : List Nat) (buf_size first last : Int) :
    Except Fault ringslice_t := do
  DBC_REQUIRE 2 (decide (buf_size > 0))
  DBC_REQUIRE 3 (decide (0 ≤ first) && decide (first < buf_size))
  DBC_REQUIRE 4 (decide (0 ≤ last) && decide (last < buf_size))
  pure { buf := buf, buf_size := buf_size, first := first, last := last }

/-- The function `ringslice_len`. The sum `buf_size + last` and the
difference that follows are of type `ringslice_cnt_t`: each is reduced to 32
bits. -/
def ringslice_len (me : ringslice_t) : Int :=
  (wrap32 (wrap32 (me.buf_size + me.last) - me.first)).tmod me.buf_size

/-- The function `ringslice_is_empty`. -/
def ringslice_is_empty (me : ringslice_t) : Bool :=
  decide (me.first = me.last)

/-- The local `idx` of `ringslice_nth_byte`: the physical index it reads. The
sum `first + n` is of type `ringslice_cnt_t`: it is reduced to 32 bits. -/
def nth_byte_idx (me : ringslice_t) (n : Int) : Int :=
  (wrap32 (me.first + n)).tmod me.buf_size

/-- The function `ringslice_nth_byte`. -/
def ringslice_nth_byte (me : ringslice_t) (n : Int) : Except Fault Nat := do
  DBC_REQUIRE 104 (decide (n < ringslice_len me))
  let idx := nth_byte_idx me n
  load me.buf idx

/-- The function `ringslice_subslice`. The sums `first + rel_first` and
`first + rel_last` are of type `ringslice_cnt_t`: each is reduced to 32
bits. -/
def ringslice_subslice (me : ringslice_t) (rel_first rel_last : Int) :
    Except Fault ringslice_t := do
  DBC_REQUIRE 101 (decide (rel_first ≤ rel_last))
  DBC_REQUIRE 102 (decide (rel_first < ringslice_len me))
  DBC_REQUIRE 103 (decide (rel_last ≤ ringslice_len me))
  pure { buf := me.buf, buf_size := me.buf_size,
         first := (wrap32 (me.first + rel_first)).tmod me.buf_size,
         last := (wrap32 (me.first + rel_last)).tmod me.buf_size }

/-- The offsets `(rs.first, rs.last)` that `ringslice_subslice` sets. -/
def subslice_offsets32 (me : ringslice_t) (rel_first rel_last : Int) : Int × Int :=
  ((wrap32 (me.first + rel_first)).tmod me.buf_size,
   (wrap32 (me.first + rel_last)).tmod me.buf_size)

/-- The function `ringslice_ptr_increment_wrap_around`, on offsets. -/
def ringslice_ptr_increment_wrap_around (curr absolute_offset start end_ : Int) :
    Except Fault Int := do
  DBC_REQUIRE 666 (decide (start ≤ curr) && decide (curr < end_))
  let next_unwrapped := curr + absolute_offset
  let ret := if next_unwrapped < end_ then next_unwrapped
    else start + (next_unwrapped - end_)
  DBC_ENSURE 999 (decide (start ≤ ret) && decide (ret < end_))
  pure ret

/-- The function `ringslice_ptr_decrement_wrap_around`, on offsets. -/
def ringslice_ptr_decrement_wrap_around (curr absolute_offset start end_ : Int) :
    Except Fault Int := do
  DBC_REQUIRE 667 (decide (start ≤ curr) && decide (curr < end_))
  let prev_unwrapped := curr + -absolute_offset
  let ret := if prev_unwrapped ≥ start then prev_unwrapped
    else end_ + (prev_unwrapped - start)
  DBC_ENSURE 998 (decide (start ≤ ret) && decide (ret < end_))
  pure ret

/-- The value of an object of type plain `char` that holds the byte `c`.
Whether plain `char` is signed is left to the implementation by C:
`char_signed` says which it is. A signed `char` gives the bytes `128..255`
the values `-128..-1`. -/
def char_val (char_signed : Bool) (c : Nat) : Int :=
  if 128 ≤ c ∧ c < 256 then (if char_signed then (c : Int) - 256 else (c : Int))
  else (c : Int)

/-- The `while` loop of `ringslice_strstr`, from the state
`(first_ptr, cmp_pos)`, run for at most `fuel` iterations. It returns the
final `(first_ptr, cmp_pos, found)`. The local `cmp` is a plain `char`; in
`*first_ptr == cmp` the byte `*first_ptr`, a `uint8_t`, and `cmp` are both
promoted to `int`. -/
def strstr_loop (char_signed : Bool) (me : ringslice_t) (substr : List Nat) :
    Nat → Int → Int → Except Fault (Int × Int × Bool)
  | 0, _, _ => .error .fuel
  | fuel + 1, first_ptr, cmp_pos =>
    if first_ptr ≠ me.last then do
      let cmp := char_val char_signed (← load substr cmp_pos)
      if cmp = 0 then
        pure (first_ptr, cmp_pos, true)
      else do
        let b ← load me.buf first_ptr
        let (first_ptr, cmp_pos) ←
          if (b : Int) = cmp then
            (pure (first_ptr, cmp_pos + 1) : Except Fault (Int × Int))
          else do
            let p ← ringslice_ptr_decrement_wrap_around first_ptr cmp_pos 0 me.buf_size
            pure (p, (0 : Int))
        let first_ptr ← ringslice_ptr_increment_wrap_around first_ptr 1 0 me.buf_size
        strstr_loop char_signed me substr fuel first_ptr cmp_pos
    else
      pure (first_ptr, cmp_pos, false)

/-- The function `ringslice_strstr`; `fuel` bounds the iterations of its
loop and `char_signed` is the signedness of plain `char`. The counter
`cmp_pos` never exceeds the number of bytes scanned, and
`buf_size + suffix_idx_last - cmp_pos` is taken only where its value lies in
`[0, buf_size)`: reduced to 32 bits (`suffix_idx_first_32`) it is the same
number. -/
def ringslice_strstr (char_signed : Bool) (fuel : Nat) (me : ringslice_t)
    (substr : List Nat) : Except Fault ringslice_t := do
  let substr_slice ← ringslice_initializer me.buf me.buf_size me.first me.first
  let (first_ptr, cmp_pos, found) ← strstr_loop char_signed me substr fuel me.first 0
  let found ←
    if first_ptr = me.last then do
      let c := char_val char_signed (← load substr cmp_pos)
      (pure (found || decide (c = 0)) : Except Fault Bool)
    else pure found
  if found then do
    let suffix_idx_last := first_ptr - 0
    let suffix_idx_first :=
      if suffix_idx_last ≥ cmp_pos then suffix_idx_last - cmp_pos
      else me.buf_size + suffix_idx_last - cmp_pos
    DBC_ENSURE 901 (decide (0 ≤ suffix_idx_first) && decide (suffix_idx_first < substr_slice.buf_size))
    DBC_ENSURE 902 (decide (0 ≤ suffix_idx_last) && decide (suffix_idx_last < substr_slice.buf_size))
    pure { substr_slice with first := suffix_idx_first, last := suffix_idx_last }
  else
    pure substr_slice

/-- The loop of `ringslice_strcmp` with its final `return`, from the state
`(chr, first_ptr)`; `chr` is the part of the string from the pointer on.
Every path reads `*chr`, so an exhausted array is a read outside it. -/
def strcmp_loop (me : ringslice_t) : List Nat → Int → Except Fault Int
  | [], _ => .error .oob
  | c :: chr, first_ptr =>
    if first_ptr ≠ me.last then do
      let b ← load me.buf first_ptr
      let diff : Int := (b : Int) - (c : Int)
      if diff ≠ 0 then
        pure diff
      else do
        let first_ptr ← ringslice_ptr_increment_wrap_around first_ptr 1 0 me.buf_size
        strcmp_loop me chr first_ptr
    else
      pure (-(c : Int))

/-- The function `ringslice_strcmp`. -/
def ringslice_strcmp (me : ringslice_t) (str : List Nat) : Except Fault Int :=
  strcmp_loop me str me.first

/-- The function `ringslice_subslice_with_suffix`; `fuel` bounds the
iterations of the search loop and `char_signed` is the signedness of plain
`char`. -/
def ringslice_subslice_with_suffix (char_signed : Bool) (fuel : Nat) (me : ringslice_t)
    (from_idx : Int) (suffix : List Nat) : Except Fault ringslice_t := do
  let rs_len := ringslice_len me
  DBC_ASSERT 204 (decide (from_idx ≤ ringslice_len me))
  let resp_slice ← ringslice_initializer me.buf me.buf_size me.first me.first
  let search_slice ← ringslice_subslice me from_idx rs_len
  let suffix_slice ← ringslice_strstr char_signed fuel search_slice suffix
  if ringslice_is_empty suffix_slice then
    pure resp_slice
  else
    pure { resp_slice with last := suffix_slice.last }

/-- Computations on the memory an operation is given through `me`: the object
`*me` and, in its field `buf`, the bytes of the array that `me->buf` points
to. A computation returns its value together with the memory it leaves; a
store into the object or the array would be a `set` of this state. -/
abbrev Mem := StateT ringslice_t (Except Fault)

/-- The read of `me->buf`. -/
def rd_buf : Mem (List Nat) := do return (← get).buf

/-- The read of `me->buf_size`. -/
def rd_buf_size : Mem Int := do return (← get).buf_size

/-- The read of `me->first`. -/
def rd_first : Mem Int := do return (← get).first

/-- The read of `me->last`. -/
def rd_last : Mem Int := do return (← get).last

/-- The read of the byte at the offset `p` of the array `me->buf`. -/
def rd_byte (p : Int) : Mem Nat := do
  let m ← get
  load m.buf p

/-- A call `op(&w, ..)` on a local view `w` over the array of `me`: the callee
is given the object `w` and the bytes of the array as they are, and the bytes
it leaves are the bytes of the array of `me`. -/
def call_on {α : Type} (w : ringslice_t) (op : Mem α) : Mem α := do
  let m ← get
  let (a, w') ← (op.run { w with buf := m.buf } : Except Fault (α × ringslice_t))
  set { m with buf := w'.buf }
  pure a

/-- The function `ringslice_len`, on the memory behind `me`. -/
def ringslice_len_st : Mem Int := do
  return (wrap32 (wrap32 ((← rd_buf_size) + (← rd_last)) - (← rd_first))).tmod (← rd_buf_size)

/-- The function `ringslice_is_empty`, on the memory behind `me`. -/
def ringslice_is_empty_st : Mem Bool := do
  return decide ((← rd_first) = (← rd_last))

/-- The function `ringslice_nth_byte`, on the memory behind `me`. -/
def ringslice_nth_byte_st (n : Int) : Mem Nat := do
  DBC_REQUIRE 104 (decide (n < (← ringslice_len_st)))
  let idx := (wrap32 ((← rd_first) + n)).tmod (← rd_buf_size)
  rd_byte idx

/-- The function `ringslice_subslice`, on the memory behind `me`. The view
`rs` is a local object, returned by value. -/
def ringslice_subslice_st (rel_first rel_last : Int) : Mem ringslice_t := do
  DBC_REQUIRE 101 (decide (rel_first ≤ rel_last))
  DBC_REQUIRE 102 (decide (rel_first < (← ringslice_len_st)))
  DBC_REQUIRE 103 (decide (rel_last ≤ (← ringslice_len_st)))
  let rs_buf ← rd_buf
  let rs_buf_size ← rd_buf_size
  let rs_first := (wrap32 ((← rd_first) + rel_first)).tmod (← rd_buf_size)
  let rs_last := (wrap32 ((← rd_first) + rel_last)).tmod (← rd_buf_size)
  pure { buf := rs_buf, buf_size := rs_buf_size, first := rs_first, last := rs_last }

/-- The `while` loop of `ringslice_strstr`, on the memory behind `me`. The
pointers `last_ptr` and `buf_end` are locals, set before the loop; the loop
reads the bytes `*first_ptr` of the array. -/
def strstr_loop_st (char_signed : Bool) (substr : List Nat) (last_ptr buf_end : Int) :
    Nat → Int → Int → Mem (Int × Int × Bool)
  | 0, _, _ => (Except.error Fault.fuel : Except Fault (Int × Int × Bool))
  | fuel + 1, first_ptr, cmp_pos =>
    if first_ptr ≠ last_ptr then do
      let cmp := char_val char_signed (← load substr cmp_pos)
      if cmp = 0 then
        pure (first_ptr, cmp_pos, true)
      else do
        let b ← rd_byte first_ptr
        let (first_ptr, cmp_pos) ←
          if (b : Int) = cmp then
            (pure (first_ptr, cmp_pos + 1) : Except Fault (Int × Int))
          else do
            let p ← ringslice_ptr_decrement_wrap_around first_ptr cmp_pos 0 buf_end
            pure (p, (0 : Int))
        let first_ptr ← ringslice_ptr_increment_wrap_around first_ptr 1 0 buf_end
        strstr_loop_st char_signed substr last_ptr buf_end fuel first_ptr cmp_pos
    else
      pure (first_ptr, cmp_pos, false)

/-- The function `ringslice_strstr`, on the memory behind `me`. The view
`substr_slice` is a local object, returned by value. -/
def ringslice_strstr_st (char_signed : Bool) (fuel : Nat) (substr : List Nat) :
    Mem ringslice_t := do
  let substr_slice ←
    ringslice_initializer (← rd_buf) (← rd_buf_size) (← rd_first) (← rd_first)
  let buf_end ← rd_buf_size
  let first_ptr ← rd_first
  let last_ptr ← rd_last
  let (first_ptr, cmp_pos, found) ←
    strstr_loop_st char_signed substr last_ptr buf_end fuel first_ptr 0
  let found ←
    if first_ptr = last_ptr then do
      let c := char_val char_signed (← load substr cmp_pos)
      (pure (found || decide (c = 0)) : Except Fault Bool)
    else pure found
  if found then do
    let suffix_idx_last := first_ptr - 0
    let suffix_idx_first ←
      if suffix_idx_last ≥ cmp_pos then (pure (suffix_idx_last - cmp_pos) : Mem Int)
      else do pure ((← rd_buf_size) + suffix_idx_last - cmp_pos)
    DBC_ENSURE 901 (decide (0 ≤ suffix_idx_first) && decide (suffix_idx_first < substr_slice.buf_size))
    DBC_ENSURE 902 (decide (0 ≤ suffix_idx_last) && decide (suffix_idx_last < substr_slice.buf_size))
    pure { substr_slice with first := suffix_idx_first, last := suffix_idx_last }
  else
    pure substr_slice

/-- The loop of `ringslice_strcmp` with its final `return`, on the memory
behind `me`. The pointers `last_ptr` and `buf_end` are locals, set before the
loop. -/
def strcmp_loop_st (last_ptr buf_end : Int) : List Nat → Int → Mem Int
  | [], _ => (Except.error Fault.oob : Except Fault Int)
  | c :: chr, first_ptr =>
    if first_ptr ≠ last_ptr then do
      let b ← rd_byte first_ptr
      let diff : Int := (b : Int) - (c : Int)
      if diff ≠ 0 then
        pure diff
      else do
        let first_ptr ← ringslice_ptr_increment_wrap_around first_ptr 1 0 buf_end
        strcmp_loop_st last_ptr buf_end chr first_ptr
    else
      pure (-(c : Int))

/-- The function `ringslice_strcmp`, on the memory behind `me`. -/
def ringslice_strcmp_st (str : List Nat) : Mem Int := do
  let first_ptr ← rd_first
  let last_ptr ← rd_last
  let buf_end ← rd_buf_size
  strcmp_loop_st last_ptr buf_end str first_ptr

/-- The function `ringslice_subslice_with_suffix`, on the memory behind `me`.
The views `resp_slice`, `search_slice` and `suffix_slice` are local objects
over the array of `me`; the first is returned by value. -/
def ringslice_subslice_with_suffix_st (char_signed : Bool) (fuel : Nat) (from_idx : Int)
    (suffix : List Nat) : Mem ringslice_t := do
  let rs_len ← ringslice_len_st
  DBC_ASSERT 204 (decide (from_idx ≤ (← ringslice_len_st)))
  let resp_slice ←
    ringslice_initializer (← rd_buf) (← rd_buf_size) (← rd_first) (← rd_first)
  let search_slice ← ringslice_subslice_st from_idx rs_len
  let suffix_slice ← call_on search_slice (ringslice_strstr_st char_signed fuel suffix)
  if (← call_on suffix_slice ringslice_is_empty_st) then
    pure resp_slice
  else
    pure { resp_slice with last := suffix_slice.last }

/-- A view is valid when its capacity is positive, both offsets lie in
`[0, capacity)`, and the array has exactly `capacity` bytes. -/
def valid (v : ringslice_t) : Prop :=
  0 < v.buf_size ∧ 0 ≤ v.first ∧ v.first < v.buf_size ∧
  0 ≤ v.last ∧ v.last < v.buf_size ∧ (v.buf.length : Int) = v.buf_size

instance (v : ringslice_t) : Decidable (valid v) := by
  unfold valid; infer_instance

/-- The logical content of a view, read off the physical layout: the bytes
from `first` up to `last`, passing from the end of the array to its start when
the view is wrapped. -/
def content (v : ringslice_t) : List Nat :=
  if v.first ≤ v.last then
    (v.buf.drop v.first.toNat).take (v.last - v.first).toNat
  else
    (v.buf.take v.buf_size.toNat).drop v.first.toNat ++ v.buf.take v.last.toNat

/-- A string literal as an argument: its characters `s`, the terminator, and
the bytes `rest` that follow it in memory. -/
def c_str (s rest : List Nat) : List Nat := s ++ 0 :: rest

/-- The physical offset of the logical position `p` of a view: `first + p`,
less the capacity once it passes the end of the array. -/
def phys (v : ringslice_t) (p : Nat) : Int :=
  if v.first + p < v.buf_size then v.first + p else v.first + p - v.buf_size

/-- The number of bytes from `first` up to `last` around the buffer, computed
over the integers: the value `ringslice_len` has when no sum passes the 32-bit
range. -/
def exact_len (v : ringslice_t) : Int :=
  (v.buf_size + v.last - v.first).tmod v.buf_size

/-- Every byte of `s` keeps its value when read as a plain `char`: so it is
for every string when plain `char` is unsigned, and for the strings of 7-bit
characters when it is signed. -/
def plain (char_signed : Bool) (s : List Nat) : Prop :=
  ∀ c ∈ s, char_val char_signed c = (c : Int)

instance (char_signed : Bool) (s : List Nat) : Decidable (plain char_signed s) := by
  unfold plain; infer_instance

/-- The outcome `r` of an operation together with the memory `m`, left as it
was. -/
def unchanged {α : Type} (m : ringslice_t) (r : Except Fault α) :
    Except Fault (α × ringslice_t) :=
  match r with
  | .ok a => .ok (a, m)
  | .error e => .error e

/-- The comparison of `ringslice_strcmp` as it acts on the logical content
`c` of the view and the bytes of the string argument. -/
def strcmp_list : List Nat → List Nat → Except Fault Int
  | _, [] => .error .oob
  | [], b :: _ => .ok (-(b : Int))
  | a :: c, b :: s =>
    if (a : Int) - (b : Int) ≠ 0 then .ok ((a : Int) - (b : Int)) else strcmp_list c s

/-- The string `s` occurs in `c` at index `i`, and at no smaller index. -/
def Leftmost (c s : List Nat) (i : Nat) : Prop :=
  s <+: c.drop i ∧ ∀ j, j < i → ¬ s <+: c.drop j

/-- Modelled from the spec: `ringslice_prefixcmp` is called by `test.c` and is
not among the sources. It is like `ringslice_strcmp`, "but stops successfully
(returns 0) as soon as the literal is exhausted regardless of remaining view
content; only signals non-zero if a mismatching byte is found before the
literal ends, or the view is exhausted before the literal" (then the view is
"less", as in the comparison). This is its loop, from the state
`(chr, first_ptr)`. -/
def prefixcmp_loop (me : ringslice_t) : List Nat → Int → Except Fault Int
  | [], _ => .error .oob
  | c :: chr, first_ptr =>
    if c = 0 then
      pure 0
    else if first_ptr ≠ me.last then do
      let b ← load me.buf first_ptr
      let diff : Int := (b : Int) - (c : Int)
      if diff ≠ 0 then
        pure diff
      else do
        let first_ptr ← ringslice_ptr_increment_wrap_around first_ptr 1 0 me.buf_size
        prefixcmp_loop me chr first_ptr
    else
      pure (-(c : Int))

/-- Modelled from the spec: `ringslice_prefixcmp` is called by `test.c` and is
not among the sources; the prefix comparison of a view with a string, by the
loop `prefixcmp_loop` from the start of the view. -/
def ringslice_prefixcmp (me : ringslice_t) (str : List Nat) : Except Fault Int :=
  prefixcmp_loop me str me.first

/-- The prefix comparison as it acts on the logical content of the view and
the bytes of the string argument. -/
def prefixcmp_list : List Nat → List Nat → Except Fault Int
  | _, [] => .error .oob
  | [], b :: _ => if b = 0 then .ok 0 else .ok (-(b : Int))
  | a :: xs, b :: s =>
    if b = 0 then .ok 0
    else if (a : Int) - (b : Int) ≠ 0 then .ok ((a : Int) - (b : Int))
    else prefixcmp_list xs s

/-! ## Offsets and layout -/

theorem tmod_wrap {N x : Int} (hN : 0 < N) (h0 : 0 ≤ x) (h1 : x < N + N) :
    x.tmod N = if x < N then x else x - N := by
  rw [Int.tmod_eq_emod h0 (le_of_lt hN)]
  split
  · exact Int.emod_eq_of_lt h0 (by assumption)
  · have h2 : x = (x - N) + N := by ring
    rw [h2, Int.add_emod_self, Int.emod_eq_of_lt (by omega) (by omega)]
    ring

theorem emod_wrap {N x : Int} (hN : 0 < N) (h0 : 0 ≤ x) (h1 : x < N + N) :
    x % N = if x < N then x else x - N := by
  rw [← Int.tmod_eq_emod h0 (le_of_lt hN)]
  exact tmod_wrap hN h0 h1

theorem len_cases {v : ringslice_t} (hv : valid v) :
    (v.first ≤ v.last ∧ exact_len v = v.last - v.first) ∨
    (v.last < v.first ∧ exact_len v = v.buf_size - v.first + v.last) := by
  obtain ⟨hN, hf0, hf1, hl0, hl1, _⟩ := hv
  unfold exact_len
  rw [tmod_wrap hN (by omega) (by omega)]
  split <;> omega

theorem content_length {v : ringslice_t} (hv : valid v) :
    ((content v).length : Int) = exact_len v := by
  have hc := len_cases hv
  obtain ⟨hN, hf0, hf1, hl0, hl1, hb⟩ := hv
  unfold content
  split
  · simp only [List.length_take, List.length_drop]
    omega
  · simp only [List.length_append, List.length_take, List.length_drop]
    omega

theorem phys_emod {v : ringslice_t} (hv : valid v) {p : Nat}
    (hp : p ≤ (content v).length) : phys v p = (v.first + p) % v.buf_size := by
  have hn := content_length hv
  have hc := len_cases hv
  obtain ⟨hN, hf0, hf1, hl0, hl1, hb⟩ := hv
  rw [emod_wrap hN (by omega) (by omega)]
  rfl

theorem phys_zero {v : ringslice_t} (hv : valid v) : phys v 0 = v.first := by
  obtain ⟨hN, hf0, hf1, hl0, hl1, hb⟩ := hv
  unfold phys
  split <;> omega

theorem phys_length {v : ringslice_t} (hv : valid v) :
    phys v (content v).length = v.last := by
  have hn := content_length hv
  have hc := len_cases hv
  obtain ⟨hN, hf0, hf1, hl0, hl1, hb⟩ := hv
  unfold phys
  split <;> omega

theorem phys_ne_last {v : ringslice_t} (hv : valid v) {p : Nat}
    (hp : p < (content v).length) : phys v p ≠ v.last := by
  have hn := content_length hv
  have hc := len_cases hv
  obtain ⟨hN, hf0, hf1, hl0, hl1, hb⟩ := hv
  unfold phys
  split <;> omega

theorem phys_range {v : ringslice_t} (hv : valid v) {p : Nat}
    (hp : p ≤ (content v).length) : 0 ≤ phys v p ∧ phys v p < v.buf_size := by
  have hn := content_length hv
  have hc := len_cases hv
  obtain ⟨hN, hf0, hf1, hl0, hl1, hb⟩ := hv
  unfold phys
  split <;> omega

theorem load_phys {v : ringslice_t} (hv : valid v) {p : Nat}
    (hp : p < (content v).length) :
    load v.buf (phys v p) = .ok ((content v)[p]) := by
  have hn := content_length hv
  have hc := len_cases hv
  have hr := phys_range hv (le_of_lt hp)
  obtain ⟨hN, hf0, hf1, hl0, hl1, hb⟩ := hv
  have hget : v.buf[(phys v p).toNat]? = some ((content v)[p]) := by
    rw [← List.getElem?_eq_getElem hp]
    have hp2 : (p : Int) < exact_len v := by omega
    unfold content
    rcases hc with ⟨h1, h2⟩ | ⟨h1, h2⟩
    · rw [if_pos h1]
      rw [List.getElem?_take_of_lt (by omega), List.getElem?_drop]
      congr 1
      unfold phys
      split <;> omega
    · rw [if_neg (not_le.mpr h1)]
      rw [List.getElem?_append, List.length_drop, List.length_take]
      by_cases hw : v.first + p < v.buf_size
      · have e1 : phys v p = v.first + p := if_pos hw
        rw [e1, if_pos (by omega), List.getElem?_drop, List.getElem?_take_of_lt (by omega)]
        congr 1
        omega
      · have e1 : phys v p = v.first + p - v.buf_size := if_neg hw
        rw [e1, if_neg (by omega), List.getElem?_take_of_lt (by omega)]
        congr 1
        omega
  unfold load
  rw [if_pos hr.1, hget]

/-! ## Windows of a view -/

theorem window_valid {v : ringslice_t} (hv : valid v) {a b : Nat}
    (ha : a ≤ (content v).length) (hb : b ≤ (content v).length) :
    valid ⟨v.buf, v.buf_size, phys v a, phys v b⟩ := by
  have h1 := phys_range hv ha
  have h2 := phys_range hv hb
  exact ⟨hv.1, h1.1, h1.2, h2.1, h2.2, hv.2.2.2.2.2⟩

theorem phys_spec (v : ringslice_t) (p : Nat) :
    (v.first + p < v.buf_size ∧ phys v p = v.first + p) ∨
    (¬ v.first + p < v.buf_size ∧ phys v p = v.first + p - v.buf_size) := by
  unfold phys
  split
  · exact Or.inl ⟨by assumption, rfl⟩
  · exact Or.inr ⟨by assumption, rfl⟩

theorem window_len {v : ringslice_t} (hv : valid v) {a b : Nat}
    (hab : a ≤ b) (hb : b ≤ (content v).length) :
    exact_len ⟨v.buf, v.buf_size, phys v a, phys v b⟩ = ((b - a : Nat) : Int) := by
  have hw := len_cases (window_valid hv (le_trans hab hb) hb)
  have hn := content_length hv
  have hc := len_cases hv
  have h1 := phys_spec v a
  have h2 := phys_spec v b
  obtain ⟨hN, hf0, hf1, hl0, hl1, hbuf⟩ := hv
  simp only at hw
  rw [Nat.cast_sub hab]
  omega

theorem window_phys {v : ringslice_t} (hv : valid v) {a j : Nat} (l : Int)
    (hj : a + j ≤ (content v).length) :
    phys ⟨v.buf, v.buf_size, phys v a, l⟩ j = phys v (a + j) := by
  have hn := content_length hv
  have hc := len_cases hv
  have h1 := phys_spec v a
  have h2 := phys_spec v (a + j)
  have h3 := phys_spec ⟨v.buf, v.buf_size, phys v a, l⟩ j
  obtain ⟨hN, hf0, hf1, hl0, hl1, hbuf⟩ := hv
  simp only at h3
  push_cast at h2
  omega

theorem window_content {v : ringslice_t} (hv : valid v) {a b : Nat}
    (hab : a ≤ b) (hb : b ≤ (content v).length) :
    content ⟨v.buf, v.buf_size, phys v a, phys v b⟩ = ((content v).drop a).take (b - a) := by
  have hwv := window_valid hv (le_trans hab hb) hb
  have hwl : (content ⟨v.buf, v.buf_size, phys v a, phys v b⟩).length = b - a := by
    have h1 := content_length hwv
    rw [window_len hv hab hb] at h1
    exact_mod_cast h1
  apply List.ext_getElem?
  intro j
  rcases Nat.lt_or_ge j (b - a) with hj | hj
  · have hj1 : j < (content ⟨v.buf, v.buf_size, phys v a, phys v b⟩).length := by omega
    have hj2 : a + j < (content v).length := by omega
    have e1 := load_phys hwv hj1
    have e2 := load_phys hv hj2
    have e3 : phys ⟨v.buf, v.buf_size, phys v a, phys v b⟩ j = phys v (a + j) :=
      window_phys hv _ (le_of_lt hj2)
    rw [e3] at e1
    simp only at e1
    rw [e2] at e1
    rw [List.getElem?_take_of_lt hj, List.getElem?_drop, List.getElem?_eq_getElem hj1,
      List.getElem?_eq_getElem hj2]
    exact congrArg some (Except.ok.inj e1).symm
  · rw [List.getElem?_eq_none (by omega), List.getElem?_eq_none]
    rw [List.length_take, List.length_drop]
    omega

theorem phys_inj {v : ringslice_t} (hv : valid v) {p q : Nat}
    (hp : p ≤ (content v).length) (hq : q ≤ (content v).length)
    (h : phys v p = phys v q) : p = q := by
  have hn := content_length hv
  have hc := len_cases hv
  have h1 := phys_spec v p
  have h2 := phys_spec v q
  obtain ⟨hN, hf0, hf1, hl0, hl1, hbuf⟩ := hv
  omega

theorem phys_tmod {v : ringslice_t} (hv : valid v) {p : Nat}
    (hp : p ≤ (content v).length) : (v.first + (p : Int)).tmod v.buf_size = phys v p := by
  have hn := content_length hv
  have hc := len_cases hv
  obtain ⟨hN, hf0, hf1, hl0, hl1, hb⟩ := hv
  rw [tmod_wrap hN (by omega) (by omega)]
  rfl

/-! ## The 32-bit counter -/

theorem wrap32_of_fits {x : Int} (h : fits32 x) : wrap32 x = x := by
  unfold fits32 at h
  unfold wrap32
  omega

theorem len_eq_exact {v : ringslice_t} (hv : valid v) (h30 : v.buf_size ≤ 1073741824) :
    ringslice_len v = exact_len v := by
  obtain ⟨hN, hf0, hf1, hl0, hl1, hb⟩ := hv
  unfold ringslice_len exact_len
  have h1 : wrap32 (v.buf_size + v.last) = v.buf_size + v.last :=
    wrap32_of_fits (by unfold fits32; omega)
  have h2 : wrap32 (v.buf_size + v.last - v.first) = v.buf_size + v.last - v.first :=
    wrap32_of_fits (by unfold fits32; omega)
  rw [h1, h2]

theorem wrap32_offset {v : ringslice_t} (hv : valid v) (h30 : v.buf_size ≤ 1073741824)
    {p : Nat} (hp : p ≤ (content v).length) : wrap32 (v.first + (p : Int)) = v.first + (p : Int) := by
  have hn := content_length hv
  have hc := len_cases hv
  obtain ⟨hN, hf0, hf1, hl0, hl1, hb⟩ := hv
  exact wrap32_of_fits (by unfold fits32; omega)

theorem subslice_ok {v : ringslice_t} (hv : valid v) (h30 : v.buf_size ≤ 1073741824)
    {a b : Nat} (hab : a ≤ b)
    (ha : a < (content v).length) (hb : b ≤ (content v).length) :
    ringslice_subslice v (a : Int) (b : Int) = .ok ⟨v.buf, v.buf_size, phys v a, phys v b⟩ := by
  have hn := content_length hv
  have hl := len_eq_exact hv h30
  have c1 : (a : Int) ≤ (b : Int) := by omega
  have c2 : (a : Int) < ringslice_len v := by omega
  have c3 : (b : Int) ≤ ringslice_len v := by omega
  simp [ringslice_subslice, DBC_REQUIRE, c1, c2, c3,
    wrap32_offset hv h30 (le_of_lt ha), wrap32_offset hv h30 hb,
    phys_tmod hv (le_of_lt ha), phys_tmod hv hb,
    bind, Except.bind, pure, Except.pure]

theorem nth_byte_ok {v : ringslice_t} (hv : valid v) (h30 : v.buf_size ≤ 1073741824)
    {p : Nat} (hp : p < (content v).length) :
    ringslice_nth_byte v (p : Int) = .ok ((content v)[p]) := by
  have hn := content_length hv
  have hl := len_eq_exact hv h30
  have c1 : (p : Int) < ringslice_len v := by omega
  simp [ringslice_nth_byte, nth_byte_idx, DBC_REQUIRE, c1, wrap32_offset hv h30 (le_of_lt hp),
    phys_tmod hv (le_of_lt hp), load_phys hv hp, bind, Except.bind]

theorem content_empty {v : ringslice_t} (hv : valid v) (h : v.first = v.last) :
    content v = [] := by
  have hn := content_length hv
  have hc := len_cases hv
  apply List.length_eq_zero.mp
  omega

/-! ## The wrap-around helpers -/

theorem increment_ok {c k N : Int} (hc0 : 0 ≤ c) (hc1 : c < N) (hk0 : 0 ≤ k) (hk1 : k ≤ N) :
    ringslice_ptr_increment_wrap_around c k 0 N =
      .ok (if c + k < N then c + k else c + k - N) := by
  by_cases hw : c + k < N
  · have a1 : 0 ≤ c + k := by omega
    simp [ringslice_ptr_increment_wrap_around, DBC_REQUIRE, DBC_ENSURE, hc0, hc1, hw, a1,
      bind, Except.bind, pure, Except.pure]
  · have a1 : 0 ≤ c + k - N := by omega
    have a2 : c + k - N < N := by omega
    simp [ringslice_ptr_increment_wrap_around, DBC_REQUIRE, DBC_ENSURE, hc0, hc1, hw, a1, a2,
      bind, Except.bind, pure, Except.pure]

theorem decrement_ok {c k N : Int} (hc0 : 0 ≤ c) (hc1 : c < N) (hk0 : 0 ≤ k) (hk1 : k ≤ N) :
    ringslice_ptr_decrement_wrap_around c k 0 N =
      .ok (if 0 ≤ c - k then c - k else N + (c - k)) := by
  have e : c + -k = c - k := by ring
  by_cases hw : 0 ≤ c - k
  · have a1 : c - k < N := by omega
    have a2 : k ≤ c := by omega
    simp [ringslice_ptr_decrement_wrap_around, DBC_REQUIRE, DBC_ENSURE, hc0, hc1, e, hw, a1, a2,
      bind, Except.bind, pure, Except.pure]
  · have a1 : 0 ≤ N + (c - k) := by omega
    have a2 : N + (c - k) < N := by omega
    have a3 : ¬ k ≤ c := by omega
    have a4 : c < k := by omega
    simp [ringslice_ptr_decrement_wrap_around, DBC_REQUIRE, DBC_ENSURE, hc0, hc1, e, hw, a1, a2,
      a3, a4, bind, Except.bind, pure, Except.pure]

theorem increment_phys {v : ringslice_t} (hv : valid v) {p : Nat}
    (hp : p < (content v).length) :
    ringslice_ptr_increment_wrap_around (phys v p) 1 0 v.buf_size = .ok (phys v (p + 1)) := by
  have hr := phys_range hv (le_of_lt hp)
  have hn := content_length hv
  have hc := len_cases hv
  rw [increment_ok hr.1 hr.2 (by omega) (by have := hv.1; omega)]
  congr 1
  obtain ⟨hN, hf0, hf1, hl0, hl1, hb⟩ := hv
  unfold phys
  push_cast
  split <;> split <;> split <;> omega

theorem decrement_phys {v : ringslice_t} (hv : valid v) {p k : Nat}
    (hp : p ≤ (content v).length) (hk : k ≤ p) :
    ringslice_ptr_decrement_wrap_around (phys v p) k 0 v.buf_size = .ok (phys v (p - k)) := by
  have hr := phys_range hv hp
  have hn := content_length hv
  have hc := len_cases hv
  obtain ⟨hN, hf0, hf1, hl0, hl1, hb⟩ := hv
  rw [decrement_ok hr.1 hr.2 (by omega) (by omega)]
  congr 1
  unfold phys
  rw [Nat.cast_sub hk]
  split <;> split <;> split <;> omega

/-! ## Comparison -/

theorem strcmp_loop_eq {v : ringslice_t} (hv : valid v) (str : List Nat) :
    ∀ p : Nat, p ≤ (content v).length →
      strcmp_loop v str (phys v p) = strcmp_list ((content v).drop p) str := by
  induction str with
  | nil =>
    intro p _
    cases (content v).drop p <;> rfl
  | cons b str ih =>
    intro p hp
    rcases Nat.lt_or_ge p (content v).length with hlt | hge
    · have hne := phys_ne_last hv hlt
      rw [List.drop_eq_getElem_cons hlt]
      simp only [strcmp_loop, strcmp_list, if_pos hne, load_phys hv hlt, increment_phys hv hlt,
        bind, Except.bind, pure, Except.pure]
      split
      · rfl
      · exact ih (p + 1) hlt
    · have hpe : p = (content v).length := le_antisymm hp hge
      subst hpe
      simp [strcmp_loop, strcmp_list, phys_length hv, pure, Except.pure]

theorem strcmp_eq {v : ringslice_t} (hv : valid v) (str : List Nat) :
    ringslice_strcmp v str = strcmp_list (content v) str := by
  have h := strcmp_loop_eq hv str 0 (Nat.zero_le _)
  rw [phys_zero hv, List.drop_zero] at h
  exact h

theorem strcmp_list_nil (b : Nat) (str : List Nat) :
    strcmp_list [] (b :: str) = .ok (-(b : Int)) := rfl

theorem strcmp_list_cons (a b : Nat) (c str : List Nat) :
    strcmp_list (a :: c) (b :: str) =
      if (a : Int) - (b : Int) ≠ 0 then .ok ((a : Int) - (b : Int)) else strcmp_list c str := rfl

/-- The value of the comparison against a terminated string, when the content
holds no zero byte. -/
theorem strcmp_list_cases (rest : List Nat) :
    ∀ (xs s : List Nat), 0 ∉ xs → 0 ∉ s →
      ∃ r : Int, strcmp_list xs (c_str s rest) = .ok r ∧
        (xs = s → r = 0) ∧
        (∀ i (h1 : i < xs.length) (h2 : i < s.length), xs.take i = s.take i → xs[i] ≠ s[i] →
          r = (xs[i] : Int) - (s[i] : Int)) ∧
        (∀ h : xs.length < s.length, xs <+: s → r = -(s[xs.length] : Int) ∧ r < 0) ∧
        (∀ h : s.length < xs.length, s <+: xs → r = (xs[s.length] : Int) ∧ 0 < r) := by
  intro xs
  induction xs with
  | nil =>
    intro s _ hs
    cases s with
    | nil =>
      refine ⟨0, rfl, fun _ => rfl, ?_, ?_, ?_⟩
      · intro i h1; simp at h1
      · intro h; simp at h
      · intro h; simp at h
    | cons b s =>
      have hb : b ≠ 0 := fun h => hs (by simp [h])
      refine ⟨-(b : Int), rfl, ?_, ?_, ?_, ?_⟩
      · intro h; simp at h
      · intro i h1; simp at h1
      · intro _ _
        refine ⟨by simp, ?_⟩
        have : 0 < b := Nat.pos_of_ne_zero hb
        omega
      · intro h; simp at h
  | cons a xs ih =>
    intro s hc hs
    have ha : a ≠ 0 := fun h => hc (by simp [h])
    have hc2 : 0 ∉ xs := fun h => hc (List.mem_cons_of_mem _ h)
    cases s with
    | nil =>
      have h0 : ((a : Int) - ((0 : Nat) : Int) ≠ 0) := by
        have : 0 < a := Nat.pos_of_ne_zero ha
        omega
      refine ⟨(a : Int), ?_, ?_, ?_, ?_, ?_⟩
      · show strcmp_list (a :: xs) (0 :: rest) = _
        rw [strcmp_list_cons, if_pos h0]; simp
      · intro h; simp at h
      · intro i _ h2; simp at h2
      · intro h; simp at h
      · intro _ _
        refine ⟨by simp, ?_⟩
        have : 0 < a := Nat.pos_of_ne_zero ha
        simp; omega
    | cons b s =>
      have hs2 : 0 ∉ s := fun h => hs (List.mem_cons_of_mem _ h)
      by_cases hab : a = b
      · subst hab
        obtain ⟨r, hr, h1, h2, h3, h4⟩ := ih s hc2 hs2
        refine ⟨r, ?_, ?_, ?_, ?_, ?_⟩
        · show strcmp_list (a :: xs) (a :: (s ++ 0 :: rest)) = _
          rw [strcmp_list_cons, if_neg (by simp)]
          exact hr
        · intro h; exact h1 (List.cons.inj h).2
        · intro i hi1 hi2 ht hne
          cases i with
          | zero => simp at hne
          | succ j =>
            simp only [List.take_succ_cons, List.cons.injEq, true_and] at ht
            simp only [List.getElem_cons_succ] at hne ⊢
            exact h2 j (by simpa using hi1) (by simpa using hi2) ht hne
        · intro hl hp
          have hp2 : xs <+: s := (List.cons_prefix_cons.mp hp).2
          have := h3 (by simpa using hl) hp2
          simpa using this
        · intro hl hp
          have hp2 : s <+: xs := (List.cons_prefix_cons.mp hp).2
          have := h4 (by simpa using hl) hp2
          simpa using this
      · have h0 : ((a : Int) - (b : Int) ≠ 0) := by omega
        refine ⟨(a : Int) - (b : Int), ?_, ?_, ?_, ?_, ?_⟩
        · show strcmp_list (a :: xs) (b :: (s ++ 0 :: rest)) = _
          rw [strcmp_list_cons, if_pos h0]
        · intro h; exact absurd (List.cons.inj h).1 hab
        · intro i hi1 hi2 ht hne
          cases i with
          | zero => simp
          | succ j =>
            simp only [List.take_succ_cons, List.cons.injEq] at ht
            exact absurd ht.1 hab
        · intro _ hp
          exact absurd (List.cons_prefix_cons.mp hp).1 hab
        · intro _ hp
          exact absurd (List.cons_prefix_cons.mp hp).1.symm hab

/-! ## Search -/

theorem prefix_drop_iff (xs s : List Nat) (i : Nat) :
    s <+: xs.drop i ↔ ∀ j (h : j < s.length), xs[i + j]? = some s[j] := by
  rw [List.isPrefix_iff]
  simp only [List.getElem?_drop]

theorem infix_iff_prefix_drop (xs s : List Nat) :
    s <:+: xs ↔ ∃ i, s <+: xs.drop i := by
  constructor
  · rintro ⟨a, b, h⟩
    refine ⟨a.length, ?_⟩
    rw [← h, List.append_assoc, List.drop_left]
    exact List.prefix_append _ _
  · rintro ⟨i, h⟩
    exact h.isInfix.trans (List.drop_suffix i xs).isInfix

theorem Leftmost.unique {xs s : List Nat} {i j : Nat} (hi : Leftmost xs s i)
    (hj : Leftmost xs s j) : i = j := by
  rcases Nat.lt_trichotomy i j with h | h | h
  · exact absurd hi.1 (hj.2 i h)
  · exact h
  · exact absurd hj.1 (hi.2 j h)

theorem Leftmost.bound {xs s : List Nat} {i : Nat} (hi : Leftmost xs s i) :
    i + s.length ≤ xs.length := by
  have h := hi.1.length_le
  rw [List.length_drop] at h
  by_cases hs : s.length = 0
  · by_contra hlt
    have h0 : 0 < i := by omega
    have hnil : s = [] := List.length_eq_zero.mp hs
    exact hi.2 0 h0 (by rw [hnil]; exact List.nil_prefix)
  · omega

theorem exists_leftmost {xs s : List Nat} (h : s <:+: xs) : ∃ i, Leftmost xs s i := by
  classical
  rw [infix_iff_prefix_drop] at h
  exact ⟨Nat.find h, Nat.find_spec h, fun j hj => Nat.find_min h hj⟩

theorem load_c_str_lt {s : List Nat} (rest : List Nat) {k : Nat} (hk : k < s.length) :
    load (c_str s rest) (k : Int) = .ok s[k] := by
  unfold load c_str
  rw [if_pos (by omega), Int.toNat_ofNat, List.getElem?_append_left hk,
    List.getElem?_eq_getElem hk]

theorem load_c_str_length (s rest : List Nat) :
    load (c_str s rest) (s.length : Int) = .ok 0 := by
  unfold load c_str
  rw [if_pos (by omega), Int.toNat_ofNat, List.getElem?_append_right (le_refl _)]
  simp

theorem measure_lt {n i k L : Nat} (hi : i + k ≤ n) (hk : k < L) :
    i * L + k < (n + 1) * L := by
  have h1 : i * L ≤ n * L := Nat.mul_le_mul_right L (by omega)
  have h2 : (n + 1) * L = n * L + L := Nat.succ_mul n L
  omega

theorem char_val_eq_zero (sgn : Bool) (c : Nat) : char_val sgn c = 0 ↔ c = 0 := by
  unfold char_val
  split
  · cases sgn
    · simp
    · simp; omega
  · exact Int.natCast_eq_zero

theorem char_val_match {sgn : Bool} {b c : Nat} :
    (b : Int) = char_val sgn c ↔ b = c ∧ char_val sgn c = (c : Int) := by
  unfold char_val
  split
  · cases sgn
    · simp
    · simp; omega
  · simp

/-- Bytes that differ are not equal in `*first_ptr == cmp`, whatever the
signedness of plain `char`. -/
theorem char_val_ne_of_ne (sgn : Bool) {b c : Nat} (h : b ≠ c) :
    (b : Int) ≠ char_val sgn c :=
  fun e => h (char_val_match.mp e).1

theorem plain_unsigned (s : List Nat) : plain false s := by
  intro c _
  simp [char_val]

theorem plain_of_lt (sgn : Bool) {s : List Nat} (h : ∀ c ∈ s, c < 128) : plain sgn s := by
  intro c hc
  have := h c hc
  unfold char_val
  rw [if_neg (by omega)]

theorem plain_nil (sgn : Bool) : plain sgn [] := fun _ h => absurd h (List.not_mem_nil _)

theorem plain_of_getElem {sgn : Bool} {s : List Nat}
    (h : ∀ j (hj : j < s.length), char_val sgn s[j] = (s[j] : Int)) : plain sgn s := by
  intro c hc
  obtain ⟨j, hj, e⟩ := List.getElem_of_mem hc
  rw [← e]
  exact h j hj

theorem strstr_loop_match (sgn : Bool) {v : ringslice_t} (hv : valid v) {s : List Nat}
    (rest : List Nat)
    (hs : 0 ∉ s) (fuel : Nat) {i k : Nat} (hlt : i + k < (content v).length)
    (hk : k < s.length) (heq : ((content v)[i + k] : Int) = char_val sgn s[k]) :
    strstr_loop sgn v (c_str s rest) (fuel + 1) (phys v (i + k)) (k : Int) =
      strstr_loop sgn v (c_str s rest) fuel (phys v (i + (k + 1))) ((k + 1 : Nat) : Int) := by
  have hne := phys_ne_last hv hlt
  have hsk : char_val sgn s[k] ≠ 0 := fun h =>
    hs (((char_val_eq_zero sgn _).mp h) ▸ List.getElem_mem hk)
  rw [strstr_loop]
  simp only [if_pos hne, load_c_str_lt rest hk, load_phys hv hlt, heq, hsk, if_true, if_false,
    increment_phys hv hlt, bind, Except.bind, pure, Except.pure]
  rfl

theorem strstr_loop_mismatch (sgn : Bool) {v : ringslice_t} (hv : valid v) {s : List Nat}
    (rest : List Nat)
    (hs : 0 ∉ s) (fuel : Nat) {i k : Nat} (hlt : i + k < (content v).length)
    (hk : k < s.length) (hneq : ((content v)[i + k] : Int) ≠ char_val sgn s[k]) :
    strstr_loop sgn v (c_str s rest) (fuel + 1) (phys v (i + k)) (k : Int) =
      strstr_loop sgn v (c_str s rest) fuel (phys v (i + 1 + 0)) ((0 : Nat) : Int) := by
  have hne := phys_ne_last hv hlt
  have hsk : char_val sgn s[k] ≠ 0 := fun h =>
    hs (((char_val_eq_zero sgn _).mp h) ▸ List.getElem_mem hk)
  have hdec := decrement_phys hv (le_of_lt hlt) (Nat.le_add_left k i)
  rw [Nat.add_sub_cancel] at hdec
  have hinc := increment_phys hv (show i < (content v).length by omega)
  rw [strstr_loop]
  simp only [if_pos hne, load_c_str_lt rest hk, load_phys hv hlt, hneq, hsk, if_false,
    hdec, hinc, bind, Except.bind, pure, Except.pure]
  rfl

theorem strstr_loop_stop (sgn : Bool) {v : ringslice_t} (hv : valid v) (s rest : List Nat)
    (fuel : Nat) {i : Nat} (hlt : i + s.length < (content v).length) :
    strstr_loop sgn v (c_str s rest) (fuel + 1) (phys v (i + s.length)) (s.length : Int) =
      .ok (phys v (i + s.length), (s.length : Int), true) := by
  have hne := phys_ne_last hv hlt
  have h0 : char_val sgn 0 = 0 := (char_val_eq_zero sgn 0).mpr rfl
  rw [strstr_loop]
  simp only [if_pos hne, load_c_str_length, h0, if_true, bind, Except.bind, pure, Except.pure]

theorem strstr_loop_spec (sgn : Bool) {v : ringslice_t} (hv : valid v) {s : List Nat}
    (rest : List Nat) (hs : 0 ∉ s) :
    ∀ (fuel i k : Nat) (_ : i + k ≤ (content v).length) (hk : k ≤ s.length),
      (∀ j (h : j < k), (content v)[i + j]? = some (s[j]) ∧ char_val sgn s[j] = (s[j] : Int)) →
      (∀ j, j < i → ¬ (plain sgn s ∧ s <+: (content v).drop j)) →
      ((content v).length + 1) * (s.length + 1) < i * (s.length + 1) + k + fuel →
      (∃ i' b, plain sgn s ∧ Leftmost (content v) s i' ∧
          strstr_loop sgn v (c_str s rest) fuel (phys v (i + k)) (k : Int) =
            .ok (phys v (i' + s.length), (s.length : Int), b) ∧
          (b = true ∨ i' + s.length = (content v).length)) ∨
      ((∀ j, ¬ (plain sgn s ∧ s <+: (content v).drop j)) ∧ ∃ k' : Nat, k' < s.length ∧
          strstr_loop sgn v (c_str s rest) fuel (phys v (i + k)) (k : Int) =
            .ok (v.last, (k' : Int), false)) := by
  intro fuel
  induction fuel with
  | zero =>
    intro i k hik hk _ _ hf
    have := measure_lt hik (show k < s.length + 1 by omega)
    omega
  | succ fuel ih =>
    intro i k hik hk hm hno hf
    have hfound : k = s.length → plain sgn s ∧ Leftmost (content v) s i := by
      intro e
      subst e
      have hp : plain sgn s := plain_of_getElem (fun j hj => (hm j hj).2)
      exact ⟨hp, (prefix_drop_iff _ _ _).mpr (fun j hj => (hm j hj).1),
        fun j hj hpre => hno j hj ⟨hp, hpre⟩⟩
    rcases Nat.lt_or_ge (i + k) (content v).length with hlt | hge
    · rcases Nat.lt_or_ge k s.length with hk2 | hk2
      · by_cases heq : ((content v)[i + k] : Int) = char_val sgn s[k]
        · rw [strstr_loop_match sgn hv rest hs fuel hlt hk2 heq]
          refine ih i (k + 1) (by omega) (by omega) ?_ hno (by omega)
          intro j hj
          rcases Nat.lt_or_ge j k with h1 | h1
          · exact hm j h1
          · have hjk : j = k := by omega
            subst hjk
            have hc := char_val_match.mp heq
            exact ⟨by rw [List.getElem?_eq_getElem hlt, hc.1], hc.2⟩
        · rw [strstr_loop_mismatch sgn hv rest hs fuel hlt hk2 heq]
          refine ih (i + 1) 0 (by omega) (by omega) (fun j hj => absurd hj (by omega)) ?_ ?_
          · intro j hj hpp
            rcases Nat.lt_or_ge j i with h1 | h1
            · exact hno j h1 hpp
            · have hji : j = i := by omega
              subst hji
              have := (prefix_drop_iff _ _ _).mp hpp.2 k hk2
              rw [List.getElem?_eq_getElem hlt] at this
              exact heq (char_val_match.mpr
                ⟨Option.some.inj this, hpp.1 _ (List.getElem_mem hk2)⟩)
          · have h2 : (i + 1) * (s.length + 1) = i * (s.length + 1) + (s.length + 1) :=
              Nat.succ_mul i _
            omega
      · have hk3 : k = s.length := by omega
        obtain ⟨hp, hl⟩ := hfound hk3
        subst hk3
        left
        exact ⟨i, true, hp, hl, strstr_loop_stop sgn hv s rest fuel hlt, Or.inl rfl⟩
    · have hp : i + k = (content v).length := by omega
      have hlast : phys v (i + k) = v.last := by rw [hp]; exact phys_length hv
      have hres : strstr_loop sgn v (c_str s rest) (fuel + 1) (phys v (i + k)) (k : Int) =
          .ok (v.last, (k : Int), false) := by
        rw [strstr_loop, hlast]
        simp [pure, Except.pure]
      by_cases hk3 : k = s.length
      · obtain ⟨hpl, hl⟩ := hfound hk3
        subst hk3
        left
        refine ⟨i, false, hpl, hl, ?_, Or.inr hp⟩
        rw [hres, ← hlast]
      · right
        refine ⟨?_, k, by omega, hres⟩
        intro j hpp
        rcases Nat.lt_or_ge j i with h1 | h1
        · exact hno j h1 hpp
        · have := hpp.2.length_le
          rw [List.length_drop] at this
          omega

theorem initializer_ok (buf : List Nat) {N f l : Int} (hN : 0 < N) (hf0 : 0 ≤ f) (hf1 : f < N)
    (hl0 : 0 ≤ l) (hl1 : l < N) :
    ringslice_initializer buf N f l = .ok ⟨buf, N, f, l⟩ := by
  simp [ringslice_initializer, DBC_REQUIRE, hN, hf0, hf1, hl0, hl1, bind, Except.bind, pure,
    Except.pure]

/-- The sum `buf_size + suffix_idx_last - cmp_pos` of `ringslice_strstr`,
formed in 32 bits, is the exact one whenever that lies in the 32-bit range, as
every offset of a view does. -/
theorem suffix_idx_first_32 {N l k : Int} (h : fits32 (N + l - k)) :
    wrap32 (wrap32 (N + l) - k) = N + l - k := by
  unfold fits32 at h
  unfold wrap32
  omega

theorem strstr_of_loop_found (sgn : Bool) {v : ringslice_t} (hv : valid v) (s rest : List Nat)
    (fuel : Nat)
    {i : Nat} {b : Bool} (hi : i + s.length ≤ (content v).length)
    (hloop : strstr_loop sgn v (c_str s rest) fuel v.first 0 =
      .ok (phys v (i + s.length), (s.length : Int), b))
    (hb : b = true ∨ i + s.length = (content v).length) :
    ringslice_strstr sgn fuel v (c_str s rest) =
      .ok ⟨v.buf, v.buf_size, phys v i, phys v (i + s.length)⟩ := by
  have hr1 := phys_range hv (show i ≤ (content v).length by omega)
  have hr2 := phys_range hv hi
  have h1 := phys_spec v i
  have h2 := phys_spec v (i + s.length)
  push_cast at h2
  have hn := content_length hv
  have hc := len_cases hv
  have h0 : char_val sgn 0 = 0 := (char_val_eq_zero sgn 0).mpr rfl
  have hfirst : (if (s.length : Int) ≤ phys v (i + s.length)
      then phys v (i + s.length) - (s.length : Int)
      else v.buf_size + phys v (i + s.length) - (s.length : Int)) = phys v i := by
    obtain ⟨hN, hf0, hf1, hl0, hl1, hbuf⟩ := hv
    split <;> omega
  unfold ringslice_strstr
  rw [initializer_ok v.buf hv.1 hv.2.1 hv.2.2.1 hv.2.1 hv.2.2.1, hloop]
  by_cases hq : phys v (i + s.length) = v.last
  · simp only [bind, Except.bind, if_pos hq, load_c_str_length, h0, pure, Except.pure, sub_zero,
      ge_iff_le, hfirst, DBC_ENSURE, hr1.1, hr1.2, decide_True, Bool.and_self, if_true,
      Bool.or_true]
    simp [hr2.1, hr2.2]
  · have hb2 : b = true := by
      rcases hb with hb | hb
      · exact hb
      · rw [hb, phys_length hv] at hq
        exact absurd rfl hq
    subst hb2
    simp only [bind, Except.bind, if_neg hq, pure, Except.pure, sub_zero,
      ge_iff_le, hfirst, DBC_ENSURE, hr1.1, hr1.2, hr2.1, hr2.2, decide_True, Bool.and_self,
      if_true]

theorem strstr_of_loop_absent (sgn : Bool) {v : ringslice_t} (hv : valid v) {s : List Nat}
    (rest : List Nat) (hs : 0 ∉ s) (fuel : Nat) {k : Nat} (hk : k < s.length)
    (hloop : strstr_loop sgn v (c_str s rest) fuel v.first 0 = .ok (v.last, (k : Int), false)) :
    ringslice_strstr sgn fuel v (c_str s rest) = .ok ⟨v.buf, v.buf_size, v.first, v.first⟩ := by
  have hsk : char_val sgn s[k] ≠ 0 := fun h =>
    hs (((char_val_eq_zero sgn _).mp h) ▸ List.getElem_mem hk)
  unfold ringslice_strstr
  rw [initializer_ok v.buf hv.1 hv.2.1 hv.2.2.1 hv.2.1 hv.2.2.1, hloop]
  simp [bind, Except.bind, pure, Except.pure, load_c_str_lt rest hk, hsk]

/-- The search returns the window of the leftmost occurrence of a string whose
bytes keep their values as plain `char`. -/
theorem strstr_found (sgn : Bool) {v : ringslice_t} (hv : valid v) {s : List Nat}
    (rest : List Nat) (hs : 0 ∉ s) (hp : plain sgn s) {i : Nat}
    (hi : Leftmost (content v) s i) {fuel : Nat}
    (hf : ((content v).length + 1) * (s.length + 1) < fuel) :
    ringslice_strstr sgn fuel v (c_str s rest) =
      .ok ⟨v.buf, v.buf_size, phys v i, phys v (i + s.length)⟩ := by
  have h := strstr_loop_spec sgn hv rest hs fuel 0 0 (Nat.zero_le _) (Nat.zero_le _)
    (fun j hj => absurd hj (Nat.not_lt_zero j)) (fun j hj => absurd hj (Nat.not_lt_zero j))
    (by omega)
  simp only [Nat.add_zero, phys_zero hv, Nat.cast_zero] at h
  rcases h with ⟨i', b, _, hl, hloop, hb⟩ | ⟨hno, _⟩
  · have e : i' = i := hl.unique hi
    subst e
    exact strstr_of_loop_found sgn hv s rest fuel hl.bound hloop hb
  · exact absurd ⟨hp, hi.1⟩ (hno i)

/-- The search returns the empty view at the start when the string does not
occur, or when one of its bytes changes value as a plain `char`. -/
theorem strstr_absent (sgn : Bool) {v : ringslice_t} (hv : valid v) {s : List Nat}
    (rest : List Nat)
    (hs : 0 ∉ s) (hno : ∀ j, ¬ (plain sgn s ∧ s <+: (content v).drop j)) {fuel : Nat}
    (hf : ((content v).length + 1) * (s.length + 1) < fuel) :
    ringslice_strstr sgn fuel v (c_str s rest) = .ok ⟨v.buf, v.buf_size, v.first, v.first⟩ := by
  have h := strstr_loop_spec sgn hv rest hs fuel 0 0 (Nat.zero_le _) (Nat.zero_le _)
    (fun j hj => absurd hj (Nat.not_lt_zero j)) (fun j hj => absurd hj (Nat.not_lt_zero j))
    (by omega)
  simp only [Nat.add_zero, phys_zero hv, Nat.cast_zero] at h
  rcases h with ⟨i', b, hp, hl, _, _⟩ | ⟨_, k, hk, hloop⟩
  · exact absurd ⟨hp, hl.1⟩ (hno i')
  · exact strstr_of_loop_absent sgn hv rest hs fuel hk hloop

/-! ## Search for a suffix -/

theorem tail_window_content {v : ringslice_t} (hv : valid v) {f : Nat}
    (hf : f ≤ (content v).length) :
    content ⟨v.buf, v.buf_size, phys v f, phys v (content v).length⟩ = (content v).drop f := by
  rw [window_content hv hf (le_refl _)]
  apply List.take_of_length_le
  rw [List.length_drop]

theorem fuel_mono {n m L fuel : Nat} (h : (n + 1) * L < fuel) (hm : m ≤ n) :
    (m + 1) * L < fuel :=
  lt_of_le_of_lt (Nat.mul_le_mul_right L (by omega)) h

theorem suffix_search_slice {v : ringslice_t} (hv : valid v) (h30 : v.buf_size ≤ 1073741824)
    {f : Nat} (hf : f < (content v).length) :
    ringslice_subslice v (f : Int) (ringslice_len v) =
      .ok ⟨v.buf, v.buf_size, phys v f, phys v (content v).length⟩ := by
  rw [len_eq_exact hv h30, ← content_length hv]
  exact subslice_ok hv h30 (le_of_lt hf) hf (le_refl _)

/-- With a non-empty suffix found in the part of the view from `f` on, the
result runs from the start of the view to the end of the leftmost occurrence. -/
theorem suffix_found (sgn : Bool) {v : ringslice_t} (hv : valid v)
    (h30 : v.buf_size ≤ 1073741824) {s : List Nat} (rest : List Nat)
    (hs : 0 ∉ s) (hp : plain sgn s) (hne : s ≠ []) {f j : Nat} (hf : f < (content v).length)
    (hl : Leftmost ((content v).drop f) s j) {fuel : Nat}
    (hfuel : ((content v).length + 1) * (s.length + 1) < fuel) :
    ringslice_subslice_with_suffix sgn fuel v (f : Int) (c_str s rest) =
      .ok ⟨v.buf, v.buf_size, v.first, phys v (f + j + s.length)⟩ := by
  have hn := content_length hv
  have hwv := window_valid hv (le_of_lt hf) (le_refl (content v).length)
  have hwc := tail_window_content hv (le_of_lt hf)
  have hb := hl.bound
  rw [List.length_drop] at hb
  have hwl : (content ⟨v.buf, v.buf_size, phys v f, phys v (content v).length⟩).length =
      (content v).length - f := by rw [hwc, List.length_drop]
  have hl2 : Leftmost (content ⟨v.buf, v.buf_size, phys v f, phys v (content v).length⟩) s j := by
    rw [hwc]; exact hl
  have hsearch := strstr_found sgn hwv rest hs hp hl2
    (fuel_mono hfuel (show (content ⟨v.buf, v.buf_size, phys v f,
      phys v (content v).length⟩).length ≤ (content v).length by omega))
  have hpos : 0 < s.length := List.length_pos.mpr hne
  have hnem : phys ⟨v.buf, v.buf_size, phys v f, phys v (content v).length⟩ j ≠
      phys ⟨v.buf, v.buf_size, phys v f, phys v (content v).length⟩ (j + s.length) := by
    intro h
    have := phys_inj hwv (by omega) (by omega) h
    omega
  have hlast : phys ⟨v.buf, v.buf_size, phys v f, phys v (content v).length⟩ (j + s.length) =
      phys v (f + j + s.length) := by
    rw [window_phys hv _ (by omega), Nat.add_assoc]
  have c1 : (f : Int) ≤ ringslice_len v := by rw [len_eq_exact hv h30]; omega
  rw [hlast] at hnem
  unfold ringslice_subslice_with_suffix
  simp only [suffix_search_slice hv h30 hf,
    initializer_ok v.buf hv.1 hv.2.1 hv.2.2.1 hv.2.1 hv.2.2.1,
    DBC_ASSERT, c1, decide_True, if_true, bind, Except.bind, hsearch, ringslice_is_empty,
    hlast, hnem, decide_False, Bool.false_eq_true, if_false, pure, Except.pure]

/-- A search that starts exactly at the end of the view stops at check 102 of
`ringslice_subslice`, whatever the view and the suffix. -/
theorem suffix_at_end_fails (sgn : Bool) (fuel : Nat) {v : ringslice_t} (hv : valid v)
    (suffix : List Nat) :
    ringslice_subslice_with_suffix sgn fuel v (ringslice_len v) suffix = .error (.dbc 102) := by
  unfold ringslice_subslice_with_suffix ringslice_subslice
  simp [DBC_ASSERT, DBC_REQUIRE, initializer_ok v.buf hv.1 hv.2.1 hv.2.2.1 hv.2.1 hv.2.2.1,
    bind, Except.bind]

/-- With nothing of the suffix found in the part of the view from `f` on, or
with the empty suffix, the result is the empty view at the start. -/
theorem suffix_absent (sgn : Bool) {v : ringslice_t} (hv : valid v)
    (h30 : v.buf_size ≤ 1073741824) {s : List Nat} (rest : List Nat)
    (hs : 0 ∉ s) {f : Nat} (hf : f < (content v).length)
    (h : s = [] ∨ ¬ (plain sgn s ∧ s <:+: (content v).drop f)) {fuel : Nat}
    (hfuel : ((content v).length + 1) * (s.length + 1) < fuel) :
    ringslice_subslice_with_suffix sgn fuel v (f : Int) (c_str s rest) =
      .ok ⟨v.buf, v.buf_size, v.first, v.first⟩ := by
  have hn := content_length hv
  have hwv := window_valid hv (le_of_lt hf) (le_refl (content v).length)
  have hwc := tail_window_content hv (le_of_lt hf)
  have hwl : (content ⟨v.buf, v.buf_size, phys v f, phys v (content v).length⟩).length =
      (content v).length - f := by rw [hwc, List.length_drop]
  have hfuel2 := fuel_mono hfuel (show (content ⟨v.buf, v.buf_size, phys v f,
      phys v (content v).length⟩).length ≤ (content v).length by omega)
  have c1 : (f : Int) ≤ ringslice_len v := by rw [len_eq_exact hv h30]; omega
  have hsearch : ringslice_strstr sgn fuel ⟨v.buf, v.buf_size, phys v f, phys v (content v).length⟩
      (c_str s rest) = .ok ⟨v.buf, v.buf_size, phys v f, phys v f⟩ := by
    rcases h with h | h
    · subst h
      have hl : Leftmost (content ⟨v.buf, v.buf_size, phys v f, phys v (content v).length⟩)
          [] 0 := ⟨List.nil_prefix, fun j hj => absurd hj (Nat.not_lt_zero j)⟩
      have hr := strstr_found sgn hwv rest hs (plain_nil sgn) hl hfuel2
      simp only [List.length_nil, Nat.add_zero, phys_zero hwv] at hr
      exact hr
    · have hno : ∀ j, ¬ (plain sgn s ∧ s <+: (content ⟨v.buf, v.buf_size, phys v f,
          phys v (content v).length⟩).drop j) := by
        intro j hj
        rw [hwc] at hj
        exact h ⟨hj.1, (infix_iff_prefix_drop _ _).mpr ⟨j, hj.2⟩⟩
      exact strstr_absent sgn hwv rest hs hno hfuel2
  unfold ringslice_subslice_with_suffix
  simp only [suffix_search_slice hv h30 hf,
    initializer_ok v.buf hv.1 hv.2.1 hv.2.2.1 hv.2.1 hv.2.2.1,
    DBC_ASSERT, c1, decide_True, if_true, bind, Except.bind, hsearch, ringslice_is_empty,
    pure, Except.pure]

/-- Check 104 of `ringslice_nth_byte` fails exactly when `n` is not below the
length; it has no lower bound. -/
theorem nth_byte_dbc_iff (v : ringslice_t) (n : Int) :
    ringslice_nth_byte v n = .error (.dbc 104) ↔ ¬ n < ringslice_len v := by
  unfold ringslice_nth_byte DBC_REQUIRE load
  by_cases h : n < ringslice_len v
  · simp only [h, decide_True, if_true, bind, Except.bind, not_true_eq_false, iff_false]
    split
    · split <;> simp
    · simp
  · simp [h, bind, Except.bind]

/-- Comparing `a` with the string `b` and `b` with the string `a` gives
opposite values, when neither holds a zero byte. -/
theorem strcmp_list_swap (r1 r2 : List Nat) :
    ∀ (a b : List Nat), 0 ∉ a → 0 ∉ b →
      ∃ x : Int, strcmp_list a (c_str b r1) = .ok x ∧ strcmp_list b (c_str a r2) = .ok (-x) := by
  intro a
  induction a with
  | nil =>
    intro b _ hb
    cases b with
    | nil => exact ⟨0, rfl, rfl⟩
    | cons g u =>
      have hg : g ≠ 0 := fun h => hb (by simp [h])
      have h0 : ((g : Int) - ((0 : Nat) : Int) ≠ 0) := by
        have : 0 < g := Nat.pos_of_ne_zero hg
        omega
      refine ⟨-(g : Int), rfl, ?_⟩
      show strcmp_list (g :: u) (0 :: r2) = _
      rw [strcmp_list_cons, if_pos h0]
      simp
  | cons h t ih =>
    intro b ha hb
    have hh : h ≠ 0 := fun e => ha (by simp [e])
    have ht : 0 ∉ t := fun e => ha (List.mem_cons_of_mem _ e)
    cases b with
    | nil =>
      have h0 : ((h : Int) - ((0 : Nat) : Int) ≠ 0) := by
        have : 0 < h := Nat.pos_of_ne_zero hh
        omega
      refine ⟨(h : Int), ?_, rfl⟩
      show strcmp_list (h :: t) (0 :: r1) = _
      rw [strcmp_list_cons, if_pos h0]
      simp
    | cons g u =>
      have hu : 0 ∉ u := fun e => hb (List.mem_cons_of_mem _ e)
      by_cases hgh : h = g
      · subst hgh
        obtain ⟨x, hx1, hx2⟩ := ih u ht hu
        refine ⟨x, ?_, ?_⟩
        · show strcmp_list (h :: t) (h :: (u ++ 0 :: r1)) = _
          rw [strcmp_list_cons, if_neg (by simp)]
          exact hx1
        · show strcmp_list (h :: u) (h :: (t ++ 0 :: r2)) = _
          rw [strcmp_list_cons, if_neg (by simp)]
          exact hx2
      · have h1 : ((h : Int) - (g : Int) ≠ 0) := by omega
        have h2 : ((g : Int) - (h : Int) ≠ 0) := by omega
        refine ⟨(h : Int) - (g : Int), ?_, ?_⟩
        · show strcmp_list (h :: t) (g :: (u ++ 0 :: r1)) = _
          rw [strcmp_list_cons, if_pos h1]
        · show strcmp_list (g :: u) (h :: (t ++ 0 :: r2)) = _
          rw [strcmp_list_cons, if_pos h2]
          congr 1
          ring

/-! ## What a returned view keeps of its input -/

theorem initializer_frame {buf : List Nat} {N f l : Int} {r : ringslice_t}
    (h : ringslice_initializer buf N f l = .ok r) : r = ⟨buf, N, f, l⟩ := by
  unfold ringslice_initializer DBC_REQUIRE at h
  simp only [bind, Except.bind, pure, Except.pure] at h
  split at h
  · contradiction
  · split at h
    · contradiction
    · split at h
      · contradiction
      · exact (Except.ok.inj h).symm

theorem subslice_frame {me r : ringslice_t} {a b : Int}
    (h : ringslice_subslice me a b = .ok r) : r.buf = me.buf ∧ r.buf_size = me.buf_size := by
  unfold ringslice_subslice DBC_REQUIRE at h
  simp only [bind, Except.bind, pure, Except.pure] at h
  split at h
  · contradiction
  · split at h
    · contradiction
    · split at h
      · contradiction
      · have e := Except.ok.inj h
        subst e
        exact ⟨rfl, rfl⟩

/-- The offsets of the view that `ringslice_subslice` returns are the pair
`subslice_offsets32`. -/
theorem subslice_offsets_eq {me r : ringslice_t} {a b : Int}
    (h : ringslice_subslice me a b = .ok r) : (r.first, r.last) = subslice_offsets32 me a b := by
  unfold ringslice_subslice DBC_REQUIRE at h
  simp only [bind, Except.bind, pure, Except.pure] at h
  split at h
  · contradiction
  · split at h
    · contradiction
    · split at h
      · contradiction
      · have e := Except.ok.inj h
        subst e
        rfl

theorem strstr_frame {sgn : Bool} {fuel : Nat} {me r : ringslice_t} {substr : List Nat}
    (h : ringslice_strstr sgn fuel me substr = .ok r) :
    r.buf = me.buf ∧ r.buf_size = me.buf_size := by
  unfold ringslice_strstr at h
  cases hinit : ringslice_initializer me.buf me.buf_size me.first me.first with
  | error e =>
    rw [hinit] at h
    simp [bind, Except.bind] at h
  | ok s0 =>
    have e0 := initializer_frame hinit
    subst e0
    rw [hinit] at h
    simp only [bind, Except.bind, pure, Except.pure, DBC_ENSURE] at h
    repeat' (split at h)
    all_goals first | contradiction | (cases h; exact ⟨rfl, rfl⟩)

theorem suffix_frame {sgn : Bool} {fuel : Nat} {me r : ringslice_t} {from_idx : Int}
    {suffix : List Nat}
    (h : ringslice_subslice_with_suffix sgn fuel me from_idx suffix = .ok r) :
    r.buf = me.buf ∧ r.buf_size = me.buf_size := by
  unfold ringslice_subslice_with_suffix at h
  cases hinit : ringslice_initializer me.buf me.buf_size me.first me.first with
  | error e =>
    rw [hinit] at h
    simp only [bind, Except.bind, DBC_ASSERT] at h
    repeat' (split at h)
    all_goals contradiction
  | ok s0 =>
    have e0 := initializer_frame hinit
    subst e0
    rw [hinit] at h
    simp only [bind, Except.bind, pure, Except.pure, DBC_ASSERT] at h
    repeat' (split at h)
    all_goals first | contradiction | (cases h; exact ⟨rfl, rfl⟩)

/-! ## Prefix comparison -/

theorem prefixcmp_loop_eq {v : ringslice_t} (hv : valid v) (str : List Nat) :
    ∀ p : Nat, p ≤ (content v).length →
      prefixcmp_loop v str (phys v p) = prefixcmp_list ((content v).drop p) str := by
  induction str with
  | nil =>
    intro p _
    cases (content v).drop p <;> rfl
  | cons b str ih =>
    intro p hp
    rcases Nat.lt_or_ge p (content v).length with hlt | hge
    · have hne := phys_ne_last hv hlt
      rw [List.drop_eq_getElem_cons hlt]
      simp only [prefixcmp_loop, prefixcmp_list, if_pos hne, load_phys hv hlt,
        increment_phys hv hlt, bind, Except.bind, pure, Except.pure]
      split
      · rfl
      · split
        · rfl
        · exact ih (p + 1) hlt
    · have hpe : p = (content v).length := le_antisymm hp hge
      subst hpe
      simp [prefixcmp_loop, prefixcmp_list, phys_length hv, pure, Except.pure]

theorem prefixcmp_eq {v : ringslice_t} (hv : valid v) (str : List Nat) :
    ringslice_prefixcmp v str = prefixcmp_list (content v) str := by
  have h := prefixcmp_loop_eq hv str 0 (Nat.zero_le _)
  rw [phys_zero hv, List.drop_zero] at h
  exact h

/-- The value of the prefix comparison against a terminated string. -/
theorem prefixcmp_list_cases (rest : List Nat) :
    ∀ (s xs : List Nat), 0 ∉ s →
      ∃ x : Int, prefixcmp_list xs (c_str s rest) = .ok x ∧
        (s <+: xs → x = 0) ∧
        (x ≠ 0 →
          (∃ i, ∃ (h1 : i < xs.length) (h2 : i < s.length),
            xs.take i = s.take i ∧ xs[i] ≠ s[i]) ∨
          (xs <+: s ∧ xs.length < s.length)) := by
  intro s
  induction s with
  | nil =>
    intro xs _
    refine ⟨0, ?_, fun _ => rfl, fun h => absurd rfl h⟩
    cases xs <;> rfl
  | cons b s ih =>
    intro xs hs
    have hb : b ≠ 0 := fun h => hs (by simp [h])
    have hs2 : 0 ∉ s := fun h => hs (List.mem_cons_of_mem _ h)
    cases xs with
    | nil =>
      refine ⟨-(b : Int), ?_, ?_, ?_⟩
      · show prefixcmp_list [] (b :: (s ++ 0 :: rest)) = _
        simp [prefixcmp_list, hb]
      · intro h; simp at h
      · intro _
        exact Or.inr ⟨List.nil_prefix, by simp⟩
    | cons a xs =>
      by_cases hab : a = b
      · subst hab
        obtain ⟨x, hx, h1, h2⟩ := ih xs hs2
        refine ⟨x, ?_, ?_, ?_⟩
        · show prefixcmp_list (a :: xs) (a :: (s ++ 0 :: rest)) = _
          simp only [prefixcmp_list, if_neg hb, sub_self, ne_eq, not_true_eq_false, if_false]
          exact hx
        · intro hp
          exact h1 (List.cons_prefix_cons.mp hp).2
        · intro hx0
          rcases h2 hx0 with ⟨i, hi1, hi2, ht, hne⟩ | ⟨hp, hl⟩
          · refine Or.inl ⟨i + 1, by simpa using hi1, by simpa using hi2, ?_, ?_⟩
            · simp [ht]
            · simpa using hne
          · exact Or.inr ⟨List.cons_prefix_cons.mpr ⟨rfl, hp⟩, by simpa using hl⟩
      · have h0 : ((a : Int) - (b : Int) ≠ 0) := by omega
        refine ⟨(a : Int) - (b : Int), ?_, ?_, ?_⟩
        · show prefixcmp_list (a :: xs) (b :: (s ++ 0 :: rest)) = _
          simp only [prefixcmp_list, if_neg hb, if_pos h0]
        · intro hp
          exact absurd (List.cons_prefix_cons.mp hp).1.symm hab
        · intro _
          exact Or.inl ⟨0, by simp, by simp, by simp, by simpa using hab⟩

/-! ## Termination and safety of the search loop -/

/-- One iteration of the search loop from the state with logical start `i`
and counter `k`: either the loop ends there, or it goes on from a state that
is greater in the lexicographic order and still within the view. -/
theorem strstr_iteration (sgn : Bool) {v : ringslice_t} (hv : valid v) {s : List Nat} (rest : List Nat)
    (hs : 0 ∉ s) {i k : Nat} (hik : i + k ≤ (content v).length) (hk : k ≤ s.length) :
    (∃ b, ∀ fuel, strstr_loop sgn v (c_str s rest) (fuel + 1) (phys v (i + k)) (k : Int) =
        .ok (phys v (i + k), (k : Int), b)) ∨
    (∃ i' k', (i < i' ∨ (i = i' ∧ k < k')) ∧ i' + k' ≤ (content v).length ∧ k' ≤ s.length ∧
      ∀ fuel, strstr_loop sgn v (c_str s rest) (fuel + 1) (phys v (i + k)) (k : Int) =
        strstr_loop sgn v (c_str s rest) fuel (phys v (i' + k')) (k' : Int)) := by
  rcases Nat.lt_or_ge (i + k) (content v).length with hlt | hge
  · rcases Nat.lt_or_ge k s.length with hk2 | hk2
    · right
      by_cases heq : ((content v)[i + k] : Int) = char_val sgn s[k]
      · exact ⟨i, k + 1, Or.inr ⟨rfl, Nat.lt_succ_self k⟩, by omega, by omega,
          fun fuel => strstr_loop_match sgn hv rest hs fuel hlt hk2 heq⟩
      · exact ⟨i + 1, 0, Or.inl (Nat.lt_succ_self i), by omega, by omega,
          fun fuel => strstr_loop_mismatch sgn hv rest hs fuel hlt hk2 heq⟩
    · have hk3 : k = s.length := by omega
      subst hk3
      left
      exact ⟨true, fun fuel => strstr_loop_stop sgn hv s rest fuel hlt⟩
  · have hp : i + k = (content v).length := by omega
    have hlast : phys v (i + k) = v.last := by rw [hp]; exact phys_length hv
    left
    refine ⟨false, fun fuel => ?_⟩
    rw [strstr_loop, hlast]
    simp [pure, Except.pure]

/-- With a budget above `(length + 1) * (|s| + 1)` less the progress made, the
loop returns, at a position of the view and with a counter that does not
exceed the bytes scanned. -/
theorem strstr_loop_returns (sgn : Bool) {v : ringslice_t} (hv : valid v) {s : List Nat} (rest : List Nat)
    (hs : 0 ∉ s) :
    ∀ (fuel i k : Nat), i + k ≤ (content v).length → k ≤ s.length →
      ((content v).length + 1) * (s.length + 1) < i * (s.length + 1) + k + fuel →
      ∃ (p k' : Nat) (b : Bool), k' ≤ p ∧ p ≤ (content v).length ∧
        strstr_loop sgn v (c_str s rest) fuel (phys v (i + k)) (k : Int) =
          .ok (phys v p, (k' : Int), b) := by
  intro fuel
  induction fuel with
  | zero =>
    intro i k hik hk hf
    have := measure_lt hik (show k < s.length + 1 by omega)
    omega
  | succ fuel ih =>
    intro i k hik hk hf
    rcases strstr_iteration sgn hv rest hs hik hk with ⟨b, hb⟩ | ⟨i', k', hlex, hik', hk', hstep⟩
    · exact ⟨i + k, k, b, Nat.le_add_left k i, hik, hb fuel⟩
    · rw [hstep fuel]
      refine ih i' k' hik' hk' ?_
      rcases hlex with h | ⟨h1, h2⟩
      · have h3 : (i + 1) * (s.length + 1) ≤ i' * (s.length + 1) :=
          Nat.mul_le_mul_right _ h
        have h4 : (i + 1) * (s.length + 1) = i * (s.length + 1) + (s.length + 1) :=
          Nat.succ_mul i _
        omega
      · subst h1
        omega

/-- The search returns a valid view for every valid view and terminated
string, given enough iterations. -/
theorem strstr_returns_valid (sgn : Bool) {v : ringslice_t} (hv : valid v) {s : List Nat} (rest : List Nat)
    (hs : 0 ∉ s) {fuel : Nat} (hf : ((content v).length + 1) * (s.length + 1) < fuel) :
    ∃ r, ringslice_strstr sgn fuel v (c_str s rest) = .ok r ∧ valid r ∧
      r.buf = v.buf ∧ r.buf_size = v.buf_size := by
  by_cases hocc : plain sgn s ∧ s <:+: content v
  · obtain ⟨i, hl⟩ := exists_leftmost hocc.2
    have hb := hl.bound
    exact ⟨_, strstr_found sgn hv rest hs hocc.1 hl hf,
      window_valid hv (show i ≤ (content v).length by omega) hb, rfl, rfl⟩
  · have hno : ∀ j, ¬ (plain sgn s ∧ s <+: (content v).drop j) := fun j hj =>
      hocc ⟨hj.1, (infix_iff_prefix_drop _ _).mpr ⟨j, hj.2⟩⟩
    exact ⟨_, strstr_absent sgn hv rest hs hno hf,
      ⟨hv.1, hv.2.1, hv.2.2.1, hv.2.1, hv.2.2.1, hv.2.2.2.2.2⟩, rfl, rfl⟩

theorem emod_neg_wrap {N x : Int} (h0 : -N ≤ x) (h1 : x < 0) :
    x % N = x + N := by
  rw [← Int.add_emod_self, Int.emod_eq_of_lt (by omega) (by omega)]

/-- For a string whose bytes keep their values as plain `char`, the search
returns the window of the leftmost occurrence: its offsets, its length and its
content. -/
theorem strstr_leftmost_window (sgn : Bool) {fuel : Nat} {v : ringslice_t} {s : List Nat}
    (rest : List Nat) {i : Nat} (hv : valid v) (h30 : v.buf_size ≤ 1073741824) (hs : 0 ∉ s)
    (hp : plain sgn s) (hl : Leftmost (content v) s i)
    (hfuel : ((content v).length + 1) * (s.length + 1) < fuel) :
    ∃ r, ringslice_strstr sgn fuel v (c_str s rest) = .ok r ∧
      r.first = (v.first + i) % v.buf_size ∧
      r.last = (v.first + i + s.length) % v.buf_size ∧
      r.buf = v.buf ∧ r.buf_size = v.buf_size ∧
      ringslice_len r = s.length ∧ content r = s := by
  have hb := hl.bound
  have hwv := window_valid hv (show i ≤ (content v).length by omega) hb
  refine ⟨_, strstr_found sgn hv rest hs hp hl hfuel, ?_, ?_, rfl, rfl, ?_, ?_⟩
  · exact phys_emod hv (by omega)
  · show phys v (i + s.length) = _
    rw [phys_emod hv hb]
    push_cast
    rw [add_assoc]
  · rw [len_eq_exact hwv h30, window_len hv (Nat.le_add_right _ _) hb, Nat.add_sub_cancel_left]
  · rw [window_content hv (Nat.le_add_right _ _) hb, Nat.add_sub_cancel_left]
    exact (List.prefix_iff_eq_take.mp hl.1).symm

/-- For a string whose bytes keep their values as plain `char`, the result of
the search compares equal to the string exactly when the string occurs. -/
theorem strcmp_of_strstr (sgn : Bool) {fuel : Nat} {v : ringslice_t} {s : List Nat}
    (rest : List Nat) (hv : valid v) (hs : 0 ∉ s) (hp : plain sgn s)
    (hfuel : ((content v).length + 1) * (s.length + 1) < fuel) :
    ∃ r x, ringslice_strstr sgn fuel v (c_str s rest) = .ok r ∧
      ringslice_strcmp r (c_str s rest) = .ok x ∧
      (x = 0 ↔ s <:+: content v) ∧
      (s ≠ [] → ¬ s <:+: content v → ringslice_is_empty r = true ∧ x < 0) := by
  by_cases hocc : s <:+: content v
  · obtain ⟨i, hl⟩ := exists_leftmost hocc
    have hb := hl.bound
    have hwv := window_valid hv (show i ≤ (content v).length by omega) hb
    have hwc : content ⟨v.buf, v.buf_size, phys v i, phys v (i + s.length)⟩ = s := by
      rw [window_content hv (Nat.le_add_right _ _) hb, Nat.add_sub_cancel_left]
      exact (List.prefix_iff_eq_take.mp hl.1).symm
    obtain ⟨x, hx, hx0, _⟩ := strcmp_list_cases rest s s hs hs
    refine ⟨_, x, strstr_found sgn hv rest hs hp hl hfuel, ?_, ?_, ?_⟩
    · rw [strcmp_eq hwv, hwc]; exact hx
    · exact ⟨fun _ => hocc, fun _ => hx0 rfl⟩
    · intro _ h; exact absurd hocc h
  · have hno : ∀ j, ¬ (plain sgn s ∧ s <+: (content v).drop j) := fun j hj =>
      hocc ((infix_iff_prefix_drop _ _).mpr ⟨j, hj.2⟩)
    have hwv : valid ⟨v.buf, v.buf_size, v.first, v.first⟩ :=
      ⟨hv.1, hv.2.1, hv.2.2.1, hv.2.1, hv.2.2.1, hv.2.2.2.2.2⟩
    have hwc : content ⟨v.buf, v.buf_size, v.first, v.first⟩ = [] := content_empty hwv rfl
    have hne : s ≠ [] := by
      intro h
      exact hocc (by rw [h]; exact List.nil_infix)
    obtain ⟨x, hx, _, _, hx3, _⟩ := strcmp_list_cases rest [] s (by simp) hs
    have hneg := (hx3 (List.length_pos.mpr hne) List.nil_prefix).2
    refine ⟨_, x, strstr_absent sgn hv rest hs hno hfuel, ?_, ?_, ?_⟩
    · rw [strcmp_eq hwv, hwc]; exact hx
    · exact ⟨fun h => by omega, fun h => absurd h hocc⟩
    · intro _ _
      exact ⟨by simp [ringslice_is_empty], hneg⟩

theorem content_subset_buf (v : ringslice_t) : ∀ x ∈ content v, x ∈ v.buf := by
  intro x hx
  unfold content at hx
  split at hx
  · exact List.mem_of_mem_drop (List.mem_of_mem_take hx)
  · rcases List.mem_append.mp hx with h | h
    · exact List.mem_of_mem_take (List.mem_of_mem_drop h)
    · exact List.mem_of_mem_take h

/-- In a view over an array filled with the byte `b`, every byte of the
content is `b`. -/
theorem content_replicate_getElem? {v : ringslice_t} {n b : Nat}
    (hbuf : v.buf = List.replicate n b) {p : Nat} (hp : p < (content v).length) :
    (content v)[p]? = some b := by
  rw [List.getElem?_eq_getElem hp]
  have h := content_subset_buf v _ (List.getElem_mem hp)
  rw [hbuf] at h
  rw [List.eq_of_mem_replicate h]

/-- The views of capacity `2^31 - 1` with `first = 2^31 - 2` and `last = 2`
are valid when the array has that many bytes. -/
theorem valid_top_view (b : Nat) :
    valid ⟨List.replicate 2147483647 b, 2147483647, 2147483646, 2⟩ := by
  have h : (((List.replicate 2147483647 b).length : Nat) : Int) = 2147483647 := by
    rw [List.length_replicate]
    rfl
  exact ⟨(by decide : (0 : Int) < 2147483647), (by decide : (0 : Int) ≤ 2147483646),
    (by decide : (2147483646 : Int) < 2147483647), (by decide : (0 : Int) ≤ 2),
    (by decide : (2 : Int) < 2147483647), h⟩

/-- The views of capacity `2^31 - 1` with `first = 2^31 - 2` and `last = 2`
hold three bytes. -/
theorem length_top_view (b : Nat) :
    (content ⟨List.replicate 2147483647 b, 2147483647, 2147483646, 2⟩).length = 3 := by
  have h := content_length (valid_top_view b)
  have e : exact_len ⟨List.replicate 2147483647 b, 2147483647, 2147483646, 2⟩ = 3 := by
    show ((2147483647 : Int) + 2 - 2147483646).tmod 2147483647 = 3
    decide
  omega

/-- In a view of capacity `2^31 - 1` with `first = 2^31 - 2` and `last = 2`,
the search for a suffix from index 2 forms the sub-view `(2, 3)`, whose
`first` is `(2^31 - 2 + 2) % (2^31 - 1)` taken in 32 bits, `-1`; the search
in that sub-view stops at check 3 of `ringslice_initializer`. -/
theorem suffix_top_view (sgn : Bool) (fuel : Nat) (buf str : List Nat) :
    ringslice_subslice ⟨buf, 2147483647, 2147483646, 2⟩ 2 3 =
      .ok ⟨buf, 2147483647, -1, 0⟩ ∧
    ringslice_subslice_with_suffix sgn fuel ⟨buf, 2147483647, 2147483646, 2⟩ 2 str =
      .error (.dbc 3) :=
  ⟨rfl, rfl⟩

/-! ## The operations on memory -/

theorem rd_buf_run (m : ringslice_t) : rd_buf.run m = .ok (m.buf, m) := rfl

theorem rd_buf_size_run (m : ringslice_t) : rd_buf_size.run m = .ok (m.buf_size, m) := rfl

theorem rd_first_run (m : ringslice_t) : rd_first.run m = .ok (m.first, m) := rfl

theorem rd_last_run (m : ringslice_t) : rd_last.run m = .ok (m.last, m) := rfl

theorem lift_run {α : Type} (x : Except Fault α) (m : ringslice_t) :
    (liftM x : Mem α).run m = unchanged m x := by
  cases x <;> rfl

theorem rd_byte_run (p : Int) (m : ringslice_t) :
    (rd_byte p).run m = unchanged m (load m.buf p) := by
  unfold rd_byte
  simp only [StateT.run_bind, StateT.run_get]
  exact lift_run _ m

theorem ringslice_len_st_run (m : ringslice_t) :
    ringslice_len_st.run m = .ok (ringslice_len m, m) := rfl

theorem ringslice_is_empty_st_run (m : ringslice_t) :
    ringslice_is_empty_st.run m = .ok (ringslice_is_empty m, m) := rfl

theorem ringslice_nth_byte_st_run (n : Int) (m : ringslice_t) :
    (ringslice_nth_byte_st n).run m = unchanged m (ringslice_nth_byte m n) := by
  unfold ringslice_nth_byte_st ringslice_nth_byte nth_byte_idx DBC_REQUIRE
  simp only [StateT.run_bind, ringslice_len_st_run, rd_first_run, rd_buf_size_run, rd_byte_run,
    lift_run]
  by_cases h : n < ringslice_len m
  · simp [h, unchanged, bind, Except.bind]
  · simp [h, unchanged, bind, Except.bind]

theorem run_bind_unchanged {α β : Type} {x : Mem α} {f : α → Mem β} {a : Except Fault α}
    {g : α → Except Fault β} {m : ringslice_t} (hx : x.run m = unchanged m a)
    (hf : ∀ v, (f v).run m = unchanged m (g v)) :
    (x >>= f).run m = unchanged m (a >>= g) := by
  rw [StateT.run_bind, hx]
  cases a with
  | error e => rfl
  | ok v => exact hf v

theorem pure_run {α : Type} (v : α) (m : ringslice_t) :
    (pure v : Mem α).run m = unchanged m (pure v) := rfl

theorem run_bind_read {α β : Type} {x : Mem α} {f : α → Mem β} {v : α}
    {r : Except Fault (β × ringslice_t)} {m : ringslice_t} (hx : x.run m = .ok (v, m))
    (hf : (f v).run m = r) :
    (x >>= f).run m = r := by
  rw [StateT.run_bind, hx]
  exact hf

theorem ringslice_subslice_st_run (a b : Int) (m : ringslice_t) :
    (ringslice_subslice_st a b).run m = unchanged m (ringslice_subslice m a b) := by
  unfold ringslice_subslice_st ringslice_subslice DBC_REQUIRE
  simp only [StateT.run_bind, StateT.run_pure, ringslice_len_st_run, rd_first_run,
    rd_buf_size_run, rd_buf_run, lift_run]
  by_cases h1 : a ≤ b <;> by_cases h2 : a < ringslice_len m <;>
    by_cases h3 : b ≤ ringslice_len m <;>
    simp [h1, h2, h3, unchanged, bind, Except.bind, pure, Except.pure]

theorem strstr_loop_st_run (sgn : Bool) (substr : List Nat) (m : ringslice_t) :
    ∀ (fuel : Nat) (p k : Int),
      (strstr_loop_st sgn substr m.last m.buf_size fuel p k).run m =
        unchanged m (strstr_loop sgn m substr fuel p k) := by
  intro fuel
  induction fuel with
  | zero =>
    intro p k
    rfl
  | succ fuel ih =>
    intro p k
    rw [strstr_loop_st, strstr_loop]
    by_cases h : p ≠ m.last
    · rw [if_pos h, if_pos h]
      refine run_bind_unchanged (lift_run _ m) (fun c => ?_)
      by_cases hc : char_val sgn c = 0
      · simp only [if_pos hc]
        rfl
      · simp only [if_neg hc]
        refine run_bind_unchanged (rd_byte_run p m) (fun b => ?_)
        by_cases hb : (b : Int) = char_val sgn c
        · simp only [if_pos hb]
          refine run_bind_unchanged (lift_run _ m) (fun y => ?_)
          refine run_bind_unchanged (lift_run _ m) (fun q => ?_)
          exact ih q y.2
        · simp only [if_neg hb]
          refine run_bind_unchanged (lift_run _ m) (fun q0 => ?_)
          refine run_bind_unchanged (pure_run _ m) (fun y => ?_)
          refine run_bind_unchanged (lift_run _ m) (fun q => ?_)
          exact ih q y.2
    · rw [if_neg h, if_neg h]
      rfl

theorem strcmp_loop_st_run (m : ringslice_t) :
    ∀ (str : List Nat) (p : Int),
      (strcmp_loop_st m.last m.buf_size str p).run m = unchanged m (strcmp_loop m str p) := by
  intro str
  induction str with
  | nil =>
    intro p
    rfl
  | cons c chr ih =>
    intro p
    rw [strcmp_loop_st, strcmp_loop]
    by_cases h : p ≠ m.last
    · rw [if_pos h, if_pos h]
      refine run_bind_unchanged (rd_byte_run p m) (fun b => ?_)
      by_cases hd : (b : Int) - (c : Int) ≠ 0
      · simp only [if_pos hd]
        rfl
      · simp only [if_neg hd]
        refine run_bind_unchanged (lift_run _ m) (fun q => ?_)
        exact ih q
    · rw [if_neg h, if_neg h]
      rfl

theorem ringslice_strcmp_st_run (str : List Nat) (m : ringslice_t) :
    (ringslice_strcmp_st str).run m = unchanged m (ringslice_strcmp m str) := by
  unfold ringslice_strcmp_st ringslice_strcmp
  refine run_bind_read (rd_first_run m) ?_
  refine run_bind_read (rd_last_run m) ?_
  refine run_bind_read (rd_buf_size_run m) ?_
  exact strcmp_loop_st_run m str m.first

theorem pure_run_ok {α : Type} (v : α) (m : ringslice_t) :
    (pure v : Mem α).run m = .ok (v, m) := rfl

theorem ringslice_strstr_st_run (sgn : Bool) (fuel : Nat) (substr : List Nat) (m : ringslice_t) :
    (ringslice_strstr_st sgn fuel substr).run m =
      unchanged m (ringslice_strstr sgn fuel m substr) := by
  unfold ringslice_strstr_st ringslice_strstr
  refine run_bind_read (rd_buf_run m) ?_
  refine run_bind_read (rd_buf_size_run m) ?_
  refine run_bind_read (rd_first_run m) ?_
  refine run_bind_read (rd_first_run m) ?_
  refine run_bind_unchanged (lift_run _ m) (fun substr_slice => ?_)
  refine run_bind_read (rd_buf_size_run m) ?_
  refine run_bind_read (rd_first_run m) ?_
  refine run_bind_read (rd_last_run m) ?_
  refine run_bind_unchanged (strstr_loop_st_run sgn substr m fuel m.first 0) (fun y => ?_)
  obtain ⟨p, k, found⟩ := y
  dsimp only []
  have hjp : ∀ fd : Bool,
      StateT.run
        ((if fd = true then
          if p - 0 ≥ k then do
            let y ← (pure (p - 0 - k) : Mem Int)
            liftM (DBC_ENSURE 901 (decide (0 ≤ y) && decide (y < substr_slice.buf_size)))
            liftM (DBC_ENSURE 902 (decide (0 ≤ p - 0) && decide (p - 0 < substr_slice.buf_size)))
            pure { buf := substr_slice.buf, buf_size := substr_slice.buf_size, first := y,
                   last := p - 0 }
          else do
            let __do_lift ← rd_buf_size
            let y ← (pure (__do_lift + (p - 0) - k) : Mem Int)
            liftM (DBC_ENSURE 901 (decide (0 ≤ y) && decide (y < substr_slice.buf_size)))
            liftM (DBC_ENSURE 902 (decide (0 ≤ p - 0) && decide (p - 0 < substr_slice.buf_size)))
            pure { buf := substr_slice.buf, buf_size := substr_slice.buf_size, first := y,
                   last := p - 0 }
        else pure substr_slice) : Mem ringslice_t) m =
      unchanged m
        ((if fd = true then do
          DBC_ENSURE 901
            (decide (0 ≤ if p - 0 ≥ k then p - 0 - k else m.buf_size + (p - 0) - k) &&
              decide ((if p - 0 ≥ k then p - 0 - k else m.buf_size + (p - 0) - k) <
                substr_slice.buf_size))
          DBC_ENSURE 902 (decide (0 ≤ p - 0) && decide (p - 0 < substr_slice.buf_size))
          pure { buf := substr_slice.buf, buf_size := substr_slice.buf_size,
                 first := if p - 0 ≥ k then p - 0 - k else m.buf_size + (p - 0) - k,
                 last := p - 0 }
        else pure substr_slice) : Except Fault ringslice_t) := by
    intro fd
    by_cases hf : fd = true
    · simp only [if_pos hf]
      by_cases hg : p - 0 ≥ k
      · simp only [if_pos hg]
        refine run_bind_read (pure_run_ok _ m) ?_
        refine run_bind_unchanged (lift_run _ m) (fun _ => ?_)
        refine run_bind_unchanged (lift_run _ m) (fun _ => ?_)
        rfl
      · simp only [if_neg hg]
        refine run_bind_read (rd_buf_size_run m) ?_
        refine run_bind_read (pure_run_ok _ m) ?_
        refine run_bind_unchanged (lift_run _ m) (fun _ => ?_)
        refine run_bind_unchanged (lift_run _ m) (fun _ => ?_)
        rfl
    · simp only [if_neg hf]
      rfl
  by_cases h : p = m.last
  · simp only [if_pos h]
    refine run_bind_unchanged (lift_run _ m) (fun c => ?_)
    refine run_bind_unchanged (lift_run _ m) (fun fd => ?_)
    exact hjp fd
  · simp only [if_neg h]
    refine run_bind_unchanged (pure_run _ m) (fun fd => ?_)
    exact hjp fd

theorem run_bind_unchanged_of {α β : Type} {x : Mem α} {f : α → Mem β} {a : Except Fault α}
    {g : α → Except Fault β} {m : ringslice_t} (hx : x.run m = unchanged m a)
    (hf : ∀ v, a = .ok v → (f v).run m = unchanged m (g v)) :
    (x >>= f).run m = unchanged m (a >>= g) := by
  rw [StateT.run_bind, hx]
  cases a with
  | error e => rfl
  | ok v => exact hf v rfl

theorem call_on_run {α : Type} {w : ringslice_t} {op : Mem α} {r : Except Fault α}
    (m : ringslice_t)
    (h : op.run { w with buf := m.buf } = unchanged { w with buf := m.buf } r) :
    (call_on w op).run m = unchanged m r := by
  unfold call_on
  simp only [StateT.run_bind, StateT.run_get]
  show (do
    let p ← (liftM (op.run { w with buf := m.buf }) : Mem (α × ringslice_t)).run m
    _) = _
  rw [lift_run, h]
  cases r with
  | error e => rfl
  | ok v => rfl

theorem call_on_is_empty_run (w m : ringslice_t) :
    (call_on w ringslice_is_empty_st).run m = .ok (ringslice_is_empty w, m) := by
  have h : ringslice_is_empty_st.run { w with buf := m.buf } =
      unchanged { w with buf := m.buf } (.ok (ringslice_is_empty w)) := rfl
  exact call_on_run m h

theorem ringslice_subslice_with_suffix_st_run (sgn : Bool) (fuel : Nat) (from_idx : Int)
    (suffix : List Nat) (m : ringslice_t) :
    (ringslice_subslice_with_suffix_st sgn fuel from_idx suffix).run m =
      unchanged m (ringslice_subslice_with_suffix sgn fuel m from_idx suffix) := by
  unfold ringslice_subslice_with_suffix_st ringslice_subslice_with_suffix
  refine run_bind_read (ringslice_len_st_run m) ?_
  refine run_bind_read (ringslice_len_st_run m) ?_
  refine run_bind_unchanged (lift_run _ m) (fun _ => ?_)
  refine run_bind_read (rd_buf_run m) ?_
  refine run_bind_read (rd_buf_size_run m) ?_
  refine run_bind_read (rd_first_run m) ?_
  refine run_bind_read (rd_first_run m) ?_
  refine run_bind_unchanged (lift_run _ m) (fun resp_slice => ?_)
  refine run_bind_unchanged_of (ringslice_subslice_st_run _ _ m) (fun search_slice hs => ?_)
  have hb : ({ search_slice with buf := m.buf } : ringslice_t) = search_slice := by
    have h := (subslice_frame hs).1
    cases search_slice
    cases h
    rfl
  have hcall : (call_on search_slice (ringslice_strstr_st sgn fuel suffix)).run m =
      unchanged m (ringslice_strstr sgn fuel search_slice suffix) := by
    refine call_on_run m ?_
    rw [ringslice_strstr_st_run, hb]
  refine run_bind_unchanged hcall (fun suffix_slice => ?_)
  refine run_bind_read (call_on_is_empty_run suffix_slice m) ?_
  cases ringslice_is_empty suffix_slice <;> rfl

theorem unchanged_ok {α : Type} {m m' : ringslice_t} {r : Except Fault α} {a : α}
    (h : unchanged m r = .ok (a, m')) : m' = m ∧ r = .ok a := by
  cases r with
  | error e => cases h
  | ok v =>
    cases h
    exact ⟨rfl, rfl⟩

/-! ## The properties of the specification -/

/-- C1, where plain `char` is signed: in the view with content `"\xC8a"` the
string `"\xC8"` occurs at index 0, and `ringslice_strstr` returns the empty
view at the start. The local `cmp`, a plain `char`, holds `-56`, and the byte
`200` of the view is never equal to it. Where plain `char` is unsigned the
same call returns the window `first = 0`, `last = 1` of the occurrence, which
`ringslice_strcmp`, reading the string through a `uint8_t const *`, finds
equal to the string. -/
theorem C1_strstr_signed_char_misses_byte :
    valid ⟨[200, 97, 0], 3, 0, 2⟩ ∧
    content ⟨[200, 97, 0], 3, 0, 2⟩ = [200, 97] ∧
    0 ∉ ([200] : List Nat) ∧
    Leftmost (content ⟨[200, 97, 0], 3, 0, 2⟩) [200] 0 ∧
    char_val true 200 = -56 ∧
    ringslice_strstr true 10 ⟨[200, 97, 0], 3, 0, 2⟩ (c_str [200] []) =
      .ok ⟨[200, 97, 0], 3, 0, 0⟩ ∧
    ringslice_strstr false 10 ⟨[200, 97, 0], 3, 0, 2⟩ (c_str [200] []) =
      .ok ⟨[200, 97, 0], 3, 0, 1⟩ ∧
    ringslice_strcmp ⟨[200, 97, 0], 3, 0, 1⟩ (c_str [200] []) = .ok 0 :=
  ⟨by decide, by decide, by decide,
    ⟨by decide, fun j hj => absurd hj (Nat.not_lt_zero j)⟩, by decide, rfl, rfl, rfl⟩

/-- C2: for a valid view whose content `xs` holds no zero byte and a
terminated string `s`, `ringslice_strcmp` returns `0` if `xs = s`,
`xs[i] - s[i]` at the first index where both have a byte and differ, `-s[|xs|]`
(negative) if `xs` is a proper prefix of `s`, and `xs[|s|]` (positive) if `s`
is a proper prefix of `xs`; an empty view gives a negative result for a
non-empty string and `0` for the empty one. -/
theorem C2_strcmp_three_way (v : ringslice_t) (s rest : List Nat)
    (hv : valid v) (hz : 0 ∉ content v) (hs : 0 ∉ s) :
    ∃ r : Int, ringslice_strcmp v (c_str s rest) = .ok r ∧
      (content v = s → r = 0) ∧
      (∀ i (h1 : i < (content v).length) (h2 : i < s.length),
        (content v).take i = s.take i → (content v)[i] ≠ s[i] →
          r = ((content v)[i] : Int) - (s[i] : Int)) ∧
      (∀ h : (content v).length < s.length, content v <+: s →
        r = -(s[(content v).length] : Int) ∧ r < 0) ∧
      (∀ h : s.length < (content v).length, s <+: content v →
        r = ((content v)[s.length] : Int) ∧ 0 < r) ∧
      (ringslice_is_empty v = true → (s ≠ [] → r < 0) ∧ (s = [] → r = 0)) := by
  obtain ⟨r, hr, h1, h2, h3, h4⟩ := strcmp_list_cases rest (content v) s hz hs
  refine ⟨r, ?_, h1, h2, h3, h4, ?_⟩
  · rw [strcmp_eq hv]; exact hr
  · intro he
    have hnil : content v = [] := content_empty hv (by simpa [ringslice_is_empty] using he)
    constructor
    · intro hne
      have hlen : (content v).length < s.length := by
        rw [hnil]; exact List.length_pos.mpr hne
      exact (h3 hlen (by rw [hnil]; exact List.nil_prefix)).2
    · intro hs2
      exact h1 (by rw [hnil, hs2])

/-- Witness of C2: the view of the first `ringslice_strcmp` test (content
`"Hello World!"`, wrapped) against `"Hello!"`. -/
theorem C2_strcmp_three_way_witness :
    ∃ r : Int, ringslice_strcmp
        ⟨[111, 32, 87, 111, 114, 108, 100, 33, 1, 1, 1, 72, 101, 108, 108], 15, 11, 8⟩
        (c_str [72, 101, 108, 108, 111, 33] []) = .ok r ∧
      r = -1 := by
  obtain ⟨r, hr, _, h2, _⟩ := C2_strcmp_three_way
    ⟨[111, 32, 87, 111, 114, 108, 100, 33, 1, 1, 1, 72, 101, 108, 108], 15, 11, 8⟩
    [72, 101, 108, 108, 111, 33] [] (by decide) (by decide) (by decide)
  exact ⟨r, hr, h2 5 (by decide) (by decide) (by decide) (by decide)⟩

/-- C3, at the view with content `"a\0"` and the string `"a"` held in an
array of three bytes (`char s[3] = "a"`): `ringslice_strcmp` compares the zero
byte of the view with the terminator, goes on to the byte after the
terminator, and returns `0`, though the bytes of the view are not those of the
string. When the array ends at the terminator the same call reads outside
it. -/
theorem C3_strcmp_zero_byte_reads_past_terminator :
    valid ⟨[97, 0, 0], 3, 0, 2⟩ ∧
    content ⟨[97, 0, 0], 3, 0, 2⟩ = [97, 0] ∧
    ringslice_strcmp ⟨[97, 0, 0], 3, 0, 2⟩ (c_str [97] [0]) = .ok 0 ∧
    content ⟨[97, 0, 0], 3, 0, 2⟩ ≠ [97] ∧
    ringslice_strcmp ⟨[97, 0, 0], 3, 0, 2⟩ (c_str [97] []) = .error .oob :=
  ⟨by decide, by decide, rfl, by decide, rfl⟩

/-- C4: for a valid view `v`, empty or not, and a string `s` that is empty or
does not occur in the content of `v`, `ringslice_strstr` returns (given enough
iterations) the empty view at the start of `v`: `first = last = v.first`,
over the same buffer. So it is whether plain `char` is signed or not. -/
theorem C4_strstr_absent_or_empty (char_signed : Bool) (fuel : Nat) (v : ringslice_t)
    (s rest : List Nat)
    (hv : valid v) (hs : 0 ∉ s) (h : s = [] ∨ ¬ s <:+: content v)
    (hfuel : ((content v).length + 1) * (s.length + 1) < fuel) :
    ∃ r, ringslice_strstr char_signed fuel v (c_str s rest) = .ok r ∧
      r.first = v.first ∧ r.last = v.first ∧ r.buf = v.buf ∧ r.buf_size = v.buf_size ∧
      ringslice_is_empty r = true := by
  rcases h with h | h
  · subst h
    have hl : Leftmost (content v) [] 0 :=
      ⟨List.nil_prefix, fun j hj => absurd hj (Nat.not_lt_zero j)⟩
    have hr := strstr_found char_signed hv rest hs (plain_nil char_signed) hl hfuel
    simp only [List.length_nil, Nat.add_zero, phys_zero hv] at hr
    exact ⟨_, hr, rfl, rfl, rfl, rfl, by simp [ringslice_is_empty]⟩
  · have hno : ∀ j, ¬ (plain char_signed s ∧ s <+: (content v).drop j) := fun j hj =>
      h ((infix_iff_prefix_drop _ _).mpr ⟨j, hj.2⟩)
    exact ⟨_, strstr_absent char_signed hv rest hs hno hfuel, rfl, rfl, rfl, rfl,
      by simp [ringslice_is_empty]⟩

/-- Witness of C4: the absent string `"cdfgh"` of `test.c`, in the wrapped
view with content `"abcdefghi"`. -/
theorem C4_strstr_absent_or_empty_witness :
    ∃ r, ringslice_strstr true 70 ⟨[101, 102, 103, 104, 105, 106, 97, 98, 99, 100], 10, 6, 5⟩
        (c_str [99, 100, 102, 103, 104] []) = .ok r ∧
      r.first = 6 ∧ r.last = 6 ∧ r.buf = [101, 102, 103, 104, 105, 106, 97, 98, 99, 100] ∧
      r.buf_size = 10 ∧ ringslice_is_empty r = true :=
  C4_strstr_absent_or_empty true 70 ⟨[101, 102, 103, 104, 105, 106, 97, 98, 99, 100], 10, 6, 5⟩
    [99, 100, 102, 103, 104] [] (by decide) (by decide) (Or.inr (by decide)) (by decide)

/-- C5 as stated fails: the view of capacity `2^31 - 1` with
`first = 2^31 - 2` and `last = 2` is valid and holds three bytes `'A'`; the
string `"A"` occurs at index 2, and the search from `from_idx = 2` returns no
view. The sum `first + rel_first` of `ringslice_subslice` is `2^31`, in 32 bits
`-2^31`, the search view gets `first = -1`, and `ringslice_strstr` stops at
check 3 of `ringslice_initializer`. And where plain `char` is signed, the
search for `"\xC8"` from index 0 of the view with content `"\xC8a"` returns
the empty view `first = last = 0`, not the view that ends at `last = 1`. -/
theorem C5_search_view_offset_overflows :
    valid ⟨List.replicate 2147483647 65, 2147483647, 2147483646, 2⟩ ∧
    ringslice_len ⟨List.replicate 2147483647 65, 2147483647, 2147483646, 2⟩ = 3 ∧
    (0 : Int) ≤ 2 ∧
    (2 : Int) < ringslice_len ⟨List.replicate 2147483647 65, 2147483647, 2147483646, 2⟩ ∧
    0 ∉ ([65] : List Nat) ∧ ([65] : List Nat) ≠ [] ∧
    [65] <+: (content ⟨List.replicate 2147483647 65, 2147483647, 2147483646, 2⟩).drop
      ((2 : Int).toNat + 0) ∧
    ringslice_subslice ⟨List.replicate 2147483647 65, 2147483647, 2147483646, 2⟩ 2 3 =
      .ok ⟨List.replicate 2147483647 65, 2147483647, -1, 0⟩ ∧
    ringslice_subslice_with_suffix false 10
      ⟨List.replicate 2147483647 65, 2147483647, 2147483646, 2⟩ 2 (c_str [65] []) =
      .error (.dbc 3) ∧
    ringslice_subslice_with_suffix true 10
      ⟨List.replicate 2147483647 65, 2147483647, 2147483646, 2⟩ 2 (c_str [65] []) =
      .error (.dbc 3) ∧
    valid ⟨[200, 97, 0], 3, 0, 2⟩ ∧
    [200] <+: (content ⟨[200, 97, 0], 3, 0, 2⟩).drop ((0 : Int).toNat + 0) ∧
    ringslice_subslice_with_suffix true 10 ⟨[200, 97, 0], 3, 0, 2⟩ 0 (c_str [200] []) =
      .ok ⟨[200, 97, 0], 3, 0, 0⟩ := by
  have hlen : ringslice_len ⟨List.replicate 2147483647 65, 2147483647, 2147483646, 2⟩ = 3 := by
    show (wrap32 (wrap32 ((2147483647 : Int) + 2) - 2147483646)).tmod 2147483647 = 3
    decide
  refine ⟨valid_top_view 65, hlen, by decide, by rw [hlen]; decide, by decide, by decide, ?_,
    (suffix_top_view false 10 _ (c_str [65] [])).1,
    (suffix_top_view false 10 _ _).2, (suffix_top_view true 10 _ _).2,
    by decide, by decide, rfl⟩
  show [65] <+: (content ⟨List.replicate 2147483647 65, 2147483647, 2147483646, 2⟩).drop 2
  rw [prefix_drop_iff]
  intro j hj
  have hj0 : j = 0 := by simpa using hj
  subst hj0
  exact content_replicate_getElem? rfl (by rw [length_top_view]; omega)

/-- C5, amended: for a valid view `v` of capacity at most `2^30`, an index
`0 ≤ from_idx < length(v)` and a non-empty string `s`, of 7-bit characters
where plain `char` is signed, that occurs in the content of `v` at
`from_idx + j` and at no index `from_idx + j'` with `j' < j`,
`ringslice_subslice_with_suffix` returns (given enough iterations) the view
that starts at the start of `v` and ends at the end of that occurrence:
`first = v.first` and `last = (v.first + from_idx + j + |s|) mod capacity`.
Occurrences that begin before `from_idx` play no part. -/
theorem C5_subslice_with_suffix_found (char_signed : Bool) (fuel : Nat) (v : ringslice_t)
    (from_idx : Int) (s rest : List Nat) (j : Nat)
    (hv : valid v) (h30 : v.buf_size ≤ 1073741824)
    (h0 : 0 ≤ from_idx) (h1 : from_idx < ringslice_len v)
    (hs : 0 ∉ s) (hne : s ≠ [])
    (hc : char_signed = false ∨ ∀ c ∈ s, c < 128)
    (hocc : s <+: (content v).drop (from_idx.toNat + j))
    (hmin : ∀ j', j' < j → ¬ s <+: (content v).drop (from_idx.toNat + j'))
    (hfuel : ((content v).length + 1) * (s.length + 1) < fuel) :
    ∃ r, ringslice_subslice_with_suffix char_signed fuel v from_idx (c_str s rest) = .ok r ∧
      r.first = v.first ∧
      r.last = (v.first + from_idx + j + s.length) % v.buf_size ∧
      r.buf = v.buf ∧ r.buf_size = v.buf_size := by
  obtain ⟨f, rfl⟩ := Int.eq_ofNat_of_zero_le h0
  simp only [Int.toNat_ofNat] at hocc hmin
  have hn := content_length hv
  have hle := len_eq_exact hv h30
  have hf : f < (content v).length := by omega
  have hp : plain char_signed s := by
    rcases hc with hc | hc
    · rw [hc]; exact plain_unsigned s
    · exact plain_of_lt char_signed hc
  have hl : Leftmost ((content v).drop f) s j := by
    refine ⟨?_, ?_⟩
    · rw [List.drop_drop]; exact hocc
    · intro j' hj'
      rw [List.drop_drop]; exact hmin j' hj'
  have hb := hl.bound
  rw [List.length_drop] at hb
  refine ⟨_, suffix_found char_signed hv h30 rest hs hp hne hf hl hfuel, rfl, ?_, rfl, rfl⟩
  show phys v (f + j + s.length) = _
  rw [phys_emod hv (by omega)]
  push_cast
  congr 1
  ring

/-- Witness of C5: content `"abcabc"` in a wrapped view, searched for `"abc"`
from index 1; the occurrence at index 0 is passed over. -/
theorem C5_subslice_with_suffix_found_witness :
    ∃ r, ringslice_subslice_with_suffix true 40 ⟨[98, 99, 97, 98, 99, 0, 0, 97], 8, 7, 5⟩ 1
        (c_str [97, 98, 99] []) = .ok r ∧
      r.first = 7 ∧
      r.last = (7 + 1 + (2 : Nat) + ([97, 98, 99] : List Nat).length) % 8 ∧
      r.buf = [98, 99, 97, 98, 99, 0, 0, 97] ∧ r.buf_size = 8 :=
  C5_subslice_with_suffix_found true 40 ⟨[98, 99, 97, 98, 99, 0, 0, 97], 8, 7, 5⟩ 1
    [97, 98, 99] [] 2
    (by decide) (by decide) (by decide) (by decide) (by decide) (by decide)
    (Or.inr (by decide)) (by decide) (by decide) (by decide)

/-- C6, at `from_idx = length(v)`: check 204 of
`ringslice_subslice_with_suffix` admits the index, and the call of
`ringslice_subslice` that follows fails its check 102
(`rel_first < ringslice_len(me)`). So it is for a view with content `"ab"`
searched from index 2, and for the empty view searched from index 0, whether
plain `char` is unsigned or signed. -/
theorem C6_subslice_with_suffix_at_end_fails_102 :
    valid ⟨[97, 98, 99], 3, 0, 2⟩ ∧ ringslice_len ⟨[97, 98, 99], 3, 0, 2⟩ = 2 ∧
    ringslice_subslice_with_suffix false 10 ⟨[97, 98, 99], 3, 0, 2⟩ 2 (c_str [98] []) =
      .error (.dbc 102) ∧
    ringslice_subslice_with_suffix true 10 ⟨[97, 98, 99], 3, 0, 2⟩ 2 (c_str [98] []) =
      .error (.dbc 102) ∧
    valid ⟨[97, 98, 99], 3, 1, 1⟩ ∧ ringslice_len ⟨[97, 98, 99], 3, 1, 1⟩ = 0 ∧
    ringslice_subslice_with_suffix false 10 ⟨[97, 98, 99], 3, 1, 1⟩ 0 (c_str [98] []) =
      .error (.dbc 102) ∧
    ringslice_subslice_with_suffix true 10 ⟨[97, 98, 99], 3, 1, 1⟩ 0 (c_str [98] []) =
      .error (.dbc 102) :=
  ⟨by decide, by decide, rfl, rfl, by decide, by decide, rfl, rfl⟩

/-- C7, where plain `char` is signed: in the view with content `"\xC8a"` the
string `"\xC8"` occurs, `ringslice_strstr` returns the empty view at the
start, and `ringslice_strcmp` of that view and the string is `-200`, not `0`.
The search compares the byte of the view with a plain `char`; the comparison
reads the string through a `uint8_t const *`. Where plain `char` is unsigned
the two agree: the result of the search compares equal to the string. -/
theorem C7_strcmp_of_strstr_signed_char :
    valid ⟨[200, 97, 0], 3, 0, 2⟩ ∧
    0 ∉ ([200] : List Nat) ∧
    [200] <:+: content ⟨[200, 97, 0], 3, 0, 2⟩ ∧
    ringslice_strstr true 10 ⟨[200, 97, 0], 3, 0, 2⟩ (c_str [200] []) =
      .ok ⟨[200, 97, 0], 3, 0, 0⟩ ∧
    ringslice_strcmp ⟨[200, 97, 0], 3, 0, 0⟩ (c_str [200] []) = .ok (-200) ∧
    ringslice_strstr false 10 ⟨[200, 97, 0], 3, 0, 2⟩ (c_str [200] []) =
      .ok ⟨[200, 97, 0], 3, 0, 1⟩ ∧
    ringslice_strcmp ⟨[200, 97, 0], 3, 0, 1⟩ (c_str [200] []) = .ok 0 :=
  ⟨by decide, by decide, by decide, rfl, rfl, rfl, rfl⟩

/-- C8 as stated fails: in the valid view of capacity `2^31 - 1` with
`first = 2^31 - 2` and `last = 2`, of length 3, the sub-view `(1, 2)` has
`last = (2^31 - 2 + 2) % (2^31 - 1)` taken in 32 bits: the sum is `-2^31` and
`last` is `-1`. The view returned has `first = 0`, `last = -1`, and its
`ringslice_len` is `2^31 - 2`, not `2 - 1`. -/
theorem C8_subslice_offset_overflows :
    valid ⟨List.replicate 2147483647 65, 2147483647, 2147483646, 2⟩ ∧
    ringslice_len ⟨List.replicate 2147483647 65, 2147483647, 2147483646, 2⟩ = 3 ∧
    exact_len ⟨List.replicate 2147483647 65, 2147483647, 2147483646, 2⟩ = 3 ∧
    wrap32 (2147483646 + 2) = -2147483648 ∧
    ringslice_subslice ⟨List.replicate 2147483647 65, 2147483647, 2147483646, 2⟩ 1 2 =
      .ok ⟨List.replicate 2147483647 65, 2147483647, 0, -1⟩ ∧
    ringslice_len ⟨List.replicate 2147483647 65, 2147483647, 0, -1⟩ = 2147483646 ∧
    ¬ valid ⟨List.replicate 2147483647 65, 2147483647, 0, -1⟩ := by
  refine ⟨valid_top_view 65, ?_, ?_, by decide, rfl, ?_, ?_⟩
  · show (wrap32 (wrap32 ((2147483647 : Int) + 2) - 2147483646)).tmod 2147483647 = 3
    decide
  · show ((2147483647 : Int) + 2 - 2147483646).tmod 2147483647 = 3
    decide
  · show (wrap32 (wrap32 ((2147483647 : Int) + -1) - 0)).tmod 2147483647 = 2147483646
    decide
  · intro h
    exact absurd h.2.2.2.1 (by decide : ¬ ((0 : Int) ≤ -1))

/-- C8, amended: for a valid view `v` of capacity at most `2^30` and
`0 ≤ rel_first ≤ rel_last ≤ length(v)` with
`rel_first < length(v)`, `ringslice_subslice` returns a view of length
`rel_last - rel_first` whose `i`-th byte is the `(rel_first + i)`-th byte of
`v`; its content is that range of the content of `v`. Hence the sub-view
`(0, length(v))` is `v` itself, and a sub-view `(i, i)` is empty. -/
theorem C8_subslice_range (v : ringslice_t) (rel_first rel_last : Int)
    (hv : valid v) (h30 : v.buf_size ≤ 1073741824)
    (h0 : 0 ≤ rel_first) (h1 : rel_first ≤ rel_last)
    (h2 : rel_last ≤ ringslice_len v) (h3 : rel_first < ringslice_len v) :
    ∃ r, ringslice_subslice v rel_first rel_last = .ok r ∧
      ringslice_len r = rel_last - rel_first ∧
      (∀ i : Int, 0 ≤ i → i < rel_last - rel_first →
        ∃ b, ringslice_nth_byte r i = .ok b ∧ ringslice_nth_byte v (rel_first + i) = .ok b) ∧
      content r = ((content v).drop rel_first.toNat).take (rel_last - rel_first).toNat ∧
      (rel_first = 0 → rel_last = ringslice_len v → r = v) ∧
      (rel_first = rel_last → ringslice_is_empty r = true) := by
  obtain ⟨a, rfl⟩ := Int.eq_ofNat_of_zero_le h0
  obtain ⟨b, rfl⟩ := Int.eq_ofNat_of_zero_le (le_trans h0 h1)
  have hn := content_length hv
  have hle := len_eq_exact hv h30
  have hab : a ≤ b := by omega
  have ha : a < (content v).length := by omega
  have hb : b ≤ (content v).length := by omega
  have hwv := window_valid hv (le_of_lt ha) hb
  have hwc := window_content hv hab hb
  have hwl : (content ⟨v.buf, v.buf_size, phys v a, phys v b⟩).length = b - a := by
    rw [hwc, List.length_take, List.length_drop]; omega
  have hsub : ((b : Int) - (a : Int)).toNat = b - a := by omega
  refine ⟨_, subslice_ok hv h30 hab ha hb, ?_, ?_, ?_, ?_, ?_⟩
  · rw [len_eq_exact hwv h30, window_len hv hab hb, Nat.cast_sub hab]
  · intro i hi0 hi1
    obtain ⟨k, rfl⟩ := Int.eq_ofNat_of_zero_le hi0
    have hk : k < b - a := by omega
    have hk1 : k < (content ⟨v.buf, v.buf_size, phys v a, phys v b⟩).length := by omega
    have hk2 : a + k < (content v).length := by omega
    refine ⟨_, nth_byte_ok hwv h30 hk1, ?_⟩
    have e : ((a : Int) + (k : Int)) = ((a + k : Nat) : Int) := by push_cast; rfl
    rw [e, nth_byte_ok hv h30 hk2]
    congr 1
    apply Option.some.inj
    rw [← List.getElem?_eq_getElem hk2, ← List.getElem?_eq_getElem hk1, hwc,
      List.getElem?_take_of_lt hk, List.getElem?_drop]
  · rw [hwc, Int.toNat_ofNat, hsub]
  · intro e1 e2
    have ea : a = 0 := by omega
    have eb : b = (content v).length := by omega
    subst ea
    subst eb
    rw [phys_zero hv, phys_length hv]
  · intro e
    have eab : a = b := by omega
    subst eab
    simp [ringslice_is_empty]

/-- Witness of C8: the sub-view `(1, 7)` of the wrapped view with content
`"abcdefghi"` of `test.c`. -/
theorem C8_subslice_range_witness :
    ∃ r, ringslice_subslice ⟨[101, 102, 103, 104, 105, 106, 97, 98, 99, 100], 10, 6, 5⟩ 1 7
        = .ok r ∧
      ringslice_len r = 7 - 1 ∧
      (∀ i : Int, 0 ≤ i → i < 7 - 1 →
        ∃ b, ringslice_nth_byte r i = .ok b ∧
          ringslice_nth_byte ⟨[101, 102, 103, 104, 105, 106, 97, 98, 99, 100], 10, 6, 5⟩ (1 + i)
            = .ok b) ∧
      content r =
        ((content ⟨[101, 102, 103, 104, 105, 106, 97, 98, 99, 100], 10, 6, 5⟩).drop
          (1 : Int).toNat).take ((7 : Int) - 1).toNat ∧
      ((1 : Int) = 0 →
        (7 : Int) = ringslice_len ⟨[101, 102, 103, 104, 105, 106, 97, 98, 99, 100], 10, 6, 5⟩ →
        r = ⟨[101, 102, 103, 104, 105, 106, 97, 98, 99, 100], 10, 6, 5⟩) ∧
      ((1 : Int) = 7 → ringslice_is_empty r = true) :=
  C8_subslice_range ⟨[101, 102, 103, 104, 105, 106, 97, 98, 99, 100], 10, 6, 5⟩ 1 7
    (by decide) (by decide) (by decide) (by decide) (by decide) (by decide)

/-- C9 as stated fails: for the capacity `2^30 + 1`, `first = 0` and
`last = 2^30`, `ringslice_initializer` builds the view, and `ringslice_len`
of it is `-1073741822`: the sum `buf_size + last = 2^31 + 1` does not fit the
32 bits of `ringslice_cnt_t`. The length is negative, not `last - first`. -/
theorem C9_len_negative_above_2_30 :
    (0 : Int) < 1073741825 ∧ (0 : Int) ≤ 0 ∧ (0 : Int) < 1073741825 ∧
    (0 : Int) ≤ 1073741824 ∧ (1073741824 : Int) < 1073741825 ∧
    ringslice_initializer (List.replicate 1073741825 0) 1073741825 0 1073741824 =
      .ok ⟨List.replicate 1073741825 0, 1073741825, 0, 1073741824⟩ ∧
    ringslice_len ⟨List.replicate 1073741825 0, 1073741825, 0, 1073741824⟩ = -1073741822 ∧
    ¬ (0 ≤ ringslice_len ⟨List.replicate 1073741825 0, 1073741825, 0, 1073741824⟩) ∧
    ¬ (ringslice_len ⟨List.replicate 1073741825 0, 1073741825, 0, 1073741824⟩ =
      1073741824 - 0) := by
  have hlen : ringslice_len ⟨List.replicate 1073741825 0, 1073741825, 0, 1073741824⟩ =
      -1073741822 := by
    show (wrap32 (wrap32 ((1073741825 : Int) + 1073741824) - 0)).tmod 1073741825 = -1073741822
    decide
  refine ⟨by decide, by decide, by decide, by decide, by decide, rfl, hlen, ?_, ?_⟩
  · rw [hlen]; decide
  · rw [hlen]; decide

/-- C9, amended: for a capacity `0 < N ≤ 2^30` and offsets `0 ≤ first < N`,
`0 ≤ last < N`, `ringslice_initializer` builds the view with these fields; its
length lies in `[0, N - 1]`, is `last - first` when `first ≤ last` and
`N - first + last` otherwise, and `ringslice_is_empty` holds exactly when the
length is `0`. -/
theorem C9_initializer_len_is_empty (buf : List Nat) (N first last : Int)
    (hN : 0 < N) (hN30 : N ≤ 1073741824)
    (hf0 : 0 ≤ first) (hf1 : first < N) (hl0 : 0 ≤ last) (hl1 : last < N) :
    ∃ v, ringslice_initializer buf N first last = .ok v ∧
      v = ⟨buf, N, first, last⟩ ∧
      0 ≤ ringslice_len v ∧ ringslice_len v ≤ N - 1 ∧
      (first ≤ last → ringslice_len v = last - first) ∧
      (last < first → ringslice_len v = N - first + last) ∧
      (ringslice_is_empty v = true ↔ ringslice_len v = 0) := by
  have hlen : ringslice_len ⟨buf, N, first, last⟩ =
      if N + last - first < N then N + last - first else N + last - first - N := by
    show (wrap32 (wrap32 (N + last) - first)).tmod N = _
    have h1 : wrap32 (N + last) = N + last := wrap32_of_fits (by unfold fits32; omega)
    have h2 : wrap32 (N + last - first) = N + last - first :=
      wrap32_of_fits (by unfold fits32; omega)
    rw [h1, h2]
    exact tmod_wrap hN (by omega) (by omega)
  refine ⟨_, initializer_ok buf hN hf0 hf1 hl0 hl1, rfl, ?_, ?_, ?_, ?_, ?_⟩
  · rw [hlen]; split <;> omega
  · rw [hlen]; split <;> omega
  · intro h; rw [hlen]; split <;> omega
  · intro h; rw [hlen]; split <;> omega
  · rw [hlen]
    simp only [ringslice_is_empty, decide_eq_true_eq]
    split <;> omega

/-- Witness of C9: the wrapped view of the second `ringslice_len` test of
`test.c`. -/
theorem C9_initializer_len_is_empty_witness :
    ∃ v, ringslice_initializer [97, 98, 99, 100, 101, 102, 103, 104, 105, 106] 10 9 8 = .ok v ∧
      v = ⟨[97, 98, 99, 100, 101, 102, 103, 104, 105, 106], 10, 9, 8⟩ ∧
      0 ≤ ringslice_len v ∧ ringslice_len v ≤ 10 - 1 ∧
      ((9 : Int) ≤ 8 → ringslice_len v = 8 - 9) ∧
      ((8 : Int) < 9 → ringslice_len v = 10 - 9 + 8) ∧
      (ringslice_is_empty v = true ↔ ringslice_len v = 0) :=
  C9_initializer_len_is_empty [97, 98, 99, 100, 101, 102, 103, 104, 105, 106] 10 9 8
    (by decide) (by decide) (by decide) (by decide) (by decide) (by decide)

/-- C10 as stated fails: in the valid view of capacity `2^31 - 1` with
`first = 2^31 - 2` and `last = 2`, `ringslice_len` is 3, and for `n = 2` the
sum `first + n = 2^31` is `-2^31` in 32 bits: the index of
`ringslice_nth_byte` is `-1`, not `(first + n) mod capacity = 1`, and the read
is outside the array. -/
theorem C10_index_sum_overflows :
    valid ⟨List.replicate 2147483647 65, 2147483647, 2147483646, 2⟩ ∧
    ringslice_len ⟨List.replicate 2147483647 65, 2147483647, 2147483646, 2⟩ = 3 ∧
    (0 : Int) ≤ 2 ∧
    (2 : Int) < ringslice_len ⟨List.replicate 2147483647 65, 2147483647, 2147483646, 2⟩ ∧
    nth_byte_idx ⟨List.replicate 2147483647 65, 2147483647, 2147483646, 2⟩ 2 = -1 ∧
    ((2147483646 : Int) + 2) % 2147483647 = 1 ∧
    ¬ (0 ≤ nth_byte_idx ⟨List.replicate 2147483647 65, 2147483647, 2147483646, 2⟩ 2) ∧
    ringslice_nth_byte ⟨List.replicate 2147483647 65, 2147483647, 2147483646, 2⟩ 2 =
      .error .oob := by
  have hlen : ringslice_len ⟨List.replicate 2147483647 65, 2147483647, 2147483646, 2⟩ = 3 := by
    show (wrap32 (wrap32 ((2147483647 : Int) + 2) - 2147483646)).tmod 2147483647 = 3
    decide
  have hidx : nth_byte_idx ⟨List.replicate 2147483647 65, 2147483647, 2147483646, 2⟩ 2 = -1 := by
    show (wrap32 ((2147483646 : Int) + 2)).tmod 2147483647 = -1
    decide
  refine ⟨valid_top_view 65, hlen, by decide, by rw [hlen]; decide, hidx, by decide, ?_, rfl⟩
  rw [hidx]
  decide

/-- C10, amended: for a valid view `v` of capacity at most `2^30` and
`0 ≤ n < ringslice_len(v)`,
`ringslice_nth_byte` reads the buffer at index `(v.first + n) mod capacity`
and returns the `n`-th byte of the content; that index lies in
`[0, capacity)`, is `v.first + n` when this is below the capacity and
`v.first + n - capacity` otherwise, and distinct `n` in the range give
distinct indices. -/
theorem C10_nth_byte_index (v : ringslice_t) (n : Int)
    (hv : valid v) (h30 : v.buf_size ≤ 1073741824) (h0 : 0 ≤ n) (h1 : n < ringslice_len v) :
    nth_byte_idx v n = (v.first + n) % v.buf_size ∧
    ringslice_nth_byte v n = load v.buf ((v.first + n) % v.buf_size) ∧
    (∃ b, ringslice_nth_byte v n = .ok b ∧ (content v)[n.toNat]? = some b) ∧
    0 ≤ nth_byte_idx v n ∧ nth_byte_idx v n < v.buf_size ∧
    (v.first + n < v.buf_size → nth_byte_idx v n = v.first + n) ∧
    (v.buf_size ≤ v.first + n → nth_byte_idx v n = v.first + n - v.buf_size) ∧
    (∀ m, 0 ≤ m → m < ringslice_len v → nth_byte_idx v m = nth_byte_idx v n → m = n) := by
  obtain ⟨p, rfl⟩ := Int.eq_ofNat_of_zero_le h0
  have hn := content_length hv
  have hle := len_eq_exact hv h30
  have hp : p < (content v).length := by omega
  have hidx : nth_byte_idx v (p : Int) = phys v p := by
    unfold nth_byte_idx
    rw [wrap32_offset hv h30 (le_of_lt hp)]
    exact phys_tmod hv (le_of_lt hp)
  have hr := phys_range hv (le_of_lt hp)
  have hs := phys_spec v p
  refine ⟨?_, ?_, ?_, ?_, ?_, ?_, ?_, ?_⟩
  · rw [hidx, phys_emod hv (le_of_lt hp)]
  · rw [nth_byte_ok hv h30 hp, ← phys_emod hv (le_of_lt hp), load_phys hv hp]
  · exact ⟨_, nth_byte_ok hv h30 hp, by rw [Int.toNat_ofNat, List.getElem?_eq_getElem hp]⟩
  · rw [hidx]; exact hr.1
  · rw [hidx]; exact hr.2
  · intro h; rw [hidx]; omega
  · intro h; rw [hidx]; omega
  · intro m hm0 hm1 he
    obtain ⟨q, rfl⟩ := Int.eq_ofNat_of_zero_le hm0
    have hq : q < (content v).length := by omega
    have hidq : nth_byte_idx v (q : Int) = phys v q := by
      unfold nth_byte_idx
      rw [wrap32_offset hv h30 (le_of_lt hq)]
      exact phys_tmod hv (le_of_lt hq)
    rw [hidx, hidq] at he
    have := phys_inj hv (le_of_lt hq) (le_of_lt hp) he
    omega

/-- Witness of C10: byte 5 of the wrapped view with content `"abcdefghi"` of
`test.c`, read at physical index 1. -/
theorem C10_nth_byte_index_witness :
    nth_byte_idx ⟨[101, 102, 103, 104, 105, 106, 97, 98, 99, 100], 10, 6, 5⟩ 5 = 1 ∧
    ringslice_nth_byte ⟨[101, 102, 103, 104, 105, 106, 97, 98, 99, 100], 10, 6, 5⟩ 5 =
      .ok 102 := by
  have h := C10_nth_byte_index ⟨[101, 102, 103, 104, 105, 106, 97, 98, 99, 100], 10, 6, 5⟩ 5
    (by decide) (by decide) (by decide) (by decide)
  exact ⟨h.1.trans (by decide), h.2.1.trans rfl⟩

/-- C11, at `n = -1`: check 104 of `ringslice_nth_byte` is `n < length` only,
so a negative index is not rejected. In the view with content `"b"` at
offset 1 the call returns the byte `'a'` that lies before the view; in the
view that starts at offset 0 it reads `buf[-1]`, outside the array; in an
empty view it passes the check as well and reads. -/
theorem C11_nth_byte_negative_index_not_rejected :
    valid ⟨[97, 98, 99], 3, 1, 2⟩ ∧ ringslice_len ⟨[97, 98, 99], 3, 1, 2⟩ = 1 ∧
    ringslice_nth_byte ⟨[97, 98, 99], 3, 1, 2⟩ (-1) = .ok 97 ∧
    valid ⟨[97, 98, 99], 3, 0, 1⟩ ∧
    ringslice_nth_byte ⟨[97, 98, 99], 3, 0, 1⟩ (-1) = .error .oob ∧
    valid ⟨[97, 98, 99], 3, 1, 1⟩ ∧ ringslice_len ⟨[97, 98, 99], 3, 1, 1⟩ = 0 ∧
    ringslice_nth_byte ⟨[97, 98, 99], 3, 1, 1⟩ (-1) = .ok 97 :=
  ⟨by decide, by decide, rfl, by decide, rfl, by decide, by decide, rfl⟩

/-- C12 as stated fails: in the valid view of capacity `2^31 - 1` with
`first = 2^31 - 2` and `last = 2`, of length 3, the search for the empty
string from `from_idx = 2` returns no view. The sum `first + rel_first` of
`ringslice_subslice` is `2^31`, in 32 bits `-2^31`, the search view gets
`first = -1`, and `ringslice_strstr` stops at check 3 of
`ringslice_initializer`. -/
theorem C12_search_view_offset_overflows :
    valid ⟨List.replicate 2147483647 0, 2147483647, 2147483646, 2⟩ ∧
    ringslice_len ⟨List.replicate 2147483647 0, 2147483647, 2147483646, 2⟩ = 3 ∧
    (0 : Int) ≤ 2 ∧
    (2 : Int) < ringslice_len ⟨List.replicate 2147483647 0, 2147483647, 2147483646, 2⟩ ∧
    ringslice_subslice ⟨List.replicate 2147483647 0, 2147483647, 2147483646, 2⟩ 2 3 =
      .ok ⟨List.replicate 2147483647 0, 2147483647, -1, 0⟩ ∧
    ringslice_subslice_with_suffix false 10
      ⟨List.replicate 2147483647 0, 2147483647, 2147483646, 2⟩ 2 (c_str [] []) =
      .error (.dbc 3) ∧
    ringslice_subslice_with_suffix true 10
      ⟨List.replicate 2147483647 0, 2147483647, 2147483646, 2⟩ 2 (c_str [] []) =
      .error (.dbc 3) := by
  have hlen : ringslice_len ⟨List.replicate 2147483647 0, 2147483647, 2147483646, 2⟩ = 3 := by
    show (wrap32 (wrap32 ((2147483647 : Int) + 2) - 2147483646)).tmod 2147483647 = 3
    decide
  exact ⟨valid_top_view 0, hlen, by decide, by rw [hlen]; decide,
    (suffix_top_view false 10 _ (c_str [] [])).1,
    (suffix_top_view false 10 _ _).2, (suffix_top_view true 10 _ _).2⟩

/-- C12, amended: for a valid view `v` of capacity at most `2^30`, an index
`0 ≤ from_idx < length(v)` and a string `s` that is empty or does not occur in
the content of `v` from `from_idx` on, `ringslice_subslice_with_suffix`
returns (given enough iterations) the empty view at the start of `v`:
`first = last = v.first`, over the same buffer. Occurrences that begin before
`from_idx` play no part. So it is whether plain `char` is signed or not. -/
theorem C12_subslice_with_suffix_absent (char_signed : Bool) (fuel : Nat) (v : ringslice_t)
    (from_idx : Int) (s rest : List Nat)
    (hv : valid v) (h30 : v.buf_size ≤ 1073741824)
    (h0 : 0 ≤ from_idx) (h1 : from_idx < ringslice_len v) (hs : 0 ∉ s)
    (h : s = [] ∨ ¬ s <:+: (content v).drop from_idx.toNat)
    (hfuel : ((content v).length + 1) * (s.length + 1) < fuel) :
    ∃ r, ringslice_subslice_with_suffix char_signed fuel v from_idx (c_str s rest) = .ok r ∧
      r.first = v.first ∧ r.last = v.first ∧ r.buf = v.buf ∧ r.buf_size = v.buf_size ∧
      ringslice_is_empty r = true := by
  obtain ⟨f, rfl⟩ := Int.eq_ofNat_of_zero_le h0
  simp only [Int.toNat_ofNat] at h
  have hn := content_length hv
  have hle := len_eq_exact hv h30
  have hf : f < (content v).length := by omega
  have h2 : s = [] ∨ ¬ (plain char_signed s ∧ s <:+: (content v).drop f) := by
    rcases h with h | h
    · exact Or.inl h
    · exact Or.inr (fun hh => h hh.2)
  exact ⟨_, suffix_absent char_signed hv h30 rest hs hf h2 hfuel, rfl, rfl, rfl, rfl,
    by simp [ringslice_is_empty]⟩

/-- Witness of C12: content `"abcab"` in a wrapped view, searched for `"abc"`
from index 1; the only occurrence begins at index 0. -/
theorem C12_subslice_with_suffix_absent_witness :
    ∃ r, ringslice_subslice_with_suffix true 40 ⟨[98, 99, 97, 98, 0, 0, 0, 97], 8, 7, 4⟩ 1
        (c_str [97, 98, 99] []) = .ok r ∧
      r.first = 7 ∧ r.last = 7 ∧ r.buf = [98, 99, 97, 98, 0, 0, 0, 97] ∧ r.buf_size = 8 ∧
      ringslice_is_empty r = true :=
  C12_subslice_with_suffix_absent true 40 ⟨[98, 99, 97, 98, 0, 0, 0, 97], 8, 7, 4⟩ 1
    [97, 98, 99] []
    (by decide) (by decide) (by decide) (by decide) (by decide) (Or.inr (by decide))
    (by decide)

/-- C13: for the view with content `"ab"` the search for the empty string
returns the empty view `first = last = 0`, not a view with the `last = 2` of
its input, whether plain `char` is unsigned or signed. -/
theorem C13_strstr_empty_not_a_copy :
    valid ⟨[97, 98, 99], 3, 0, 2⟩ ∧
    ringslice_strstr false 10 ⟨[97, 98, 99], 3, 0, 2⟩ (c_str [] []) =
      .ok ⟨[97, 98, 99], 3, 0, 0⟩ ∧
    ringslice_strstr true 10 ⟨[97, 98, 99], 3, 0, 2⟩ (c_str [] []) =
      .ok ⟨[97, 98, 99], 3, 0, 0⟩ ∧
    (¬ ∃ r, ringslice_strstr false 10 ⟨[97, 98, 99], 3, 0, 2⟩ (c_str [] []) = .ok r ∧
      r.first = (⟨[97, 98, 99], 3, 0, 2⟩ : ringslice_t).first ∧
      r.last = (⟨[97, 98, 99], 3, 0, 2⟩ : ringslice_t).last) ∧
    ¬ ∃ r, ringslice_strstr true 10 ⟨[97, 98, 99], 3, 0, 2⟩ (c_str [] []) = .ok r ∧
      r.first = (⟨[97, 98, 99], 3, 0, 2⟩ : ringslice_t).first ∧
      r.last = (⟨[97, 98, 99], 3, 0, 2⟩ : ringslice_t).last := by
  have he : ∀ sgn : Bool, ringslice_strstr sgn 10 ⟨[97, 98, 99], 3, 0, 2⟩ (c_str [] []) =
      .ok ⟨[97, 98, 99], 3, 0, 0⟩ := fun _ => rfl
  have hno : ∀ sgn : Bool,
      ¬ ∃ r, ringslice_strstr sgn 10 ⟨[97, 98, 99], 3, 0, 2⟩ (c_str [] []) = .ok r ∧
        r.first = (⟨[97, 98, 99], 3, 0, 2⟩ : ringslice_t).first ∧
        r.last = (⟨[97, 98, 99], 3, 0, 2⟩ : ringslice_t).last := by
    rintro sgn ⟨r, hr, _, hl⟩
    rw [he sgn] at hr
    have e := Except.ok.inj hr
    subst e
    exact absurd hl (by decide)
  exact ⟨by decide, he false, he true, hno false, hno true⟩

/-- C14: for strings `a` and `b` without a zero byte and valid views `va`,
`vb` with contents `a` and `b`, `ringslice_strcmp(va, b)` is the negative of
`ringslice_strcmp(vb, a)`: both are zero, or one is negative and the other
positive. -/
theorem C14_strcmp_antisymmetric (va vb : ringslice_t) (a b r1 r2 : List Nat)
    (hva : valid va) (hvb : valid vb) (hca : content va = a) (hcb : content vb = b)
    (ha : 0 ∉ a) (hb : 0 ∉ b) :
    ∃ x y : Int, ringslice_strcmp va (c_str b r1) = .ok x ∧
      ringslice_strcmp vb (c_str a r2) = .ok y ∧ x = -y ∧
      ((x = 0 ∧ y = 0) ∨ (x < 0 ∧ 0 < y) ∨ (0 < x ∧ y < 0)) := by
  obtain ⟨x, hx1, hx2⟩ := strcmp_list_swap r1 r2 a b ha hb
  refine ⟨x, -x, ?_, ?_, by ring, by omega⟩
  · rw [strcmp_eq hva, hca]; exact hx1
  · rw [strcmp_eq hvb, hcb]; exact hx2

/-- Witness of C14: `"Hello World!"` in a wrapped view and `"Hello!"` in a
plain one. -/
theorem C14_strcmp_antisymmetric_witness :
    ∃ x y : Int, ringslice_strcmp
        ⟨[111, 32, 87, 111, 114, 108, 100, 33, 1, 1, 1, 72, 101, 108, 108], 15, 11, 8⟩
        (c_str [72, 101, 108, 108, 111, 33] []) = .ok x ∧
      ringslice_strcmp ⟨[72, 101, 108, 108, 111, 33, 7], 7, 0, 6⟩
        (c_str [72, 101, 108, 108, 111, 32, 87, 111, 114, 108, 100, 33] [5]) = .ok y ∧
      x = -y ∧ ((x = 0 ∧ y = 0) ∨ (x < 0 ∧ 0 < y) ∨ (0 < x ∧ y < 0)) :=
  C14_strcmp_antisymmetric
    ⟨[111, 32, 87, 111, 114, 108, 100, 33, 1, 1, 1, 72, 101, 108, 108], 15, 11, 8⟩
    ⟨[72, 101, 108, 108, 111, 33, 7], 7, 0, 6⟩
    [72, 101, 108, 108, 111, 32, 87, 111, 114, 108, 100, 33] [72, 101, 108, 108, 111, 33] [] [5]
    (by decide) (by decide) (by decide) (by decide) (by decide) (by decide)

/-- C15: two valid views with the same logical content, whatever their
capacities, offsets and wrapping, give the same result of `ringslice_strcmp`
against every string; against a terminated string, and with no zero byte in
the content, that result is a value. -/
theorem C15_strcmp_layout_independent (v1 v2 : ringslice_t) (str : List Nat)
    (hv1 : valid v1) (hv2 : valid v2) (hc : content v1 = content v2) :
    ringslice_strcmp v1 str = ringslice_strcmp v2 str ∧
    (∀ s rest, str = c_str s rest → 0 ∉ s → 0 ∉ content v1 →
      ∃ x : Int, ringslice_strcmp v1 str = .ok x ∧ ringslice_strcmp v2 str = .ok x) := by
  have he : ringslice_strcmp v1 str = ringslice_strcmp v2 str := by
    rw [strcmp_eq hv1, strcmp_eq hv2, hc]
  refine ⟨he, ?_⟩
  intro s rest hstr hs hz
  obtain ⟨x, hx, _⟩ := strcmp_list_cases rest (content v1) s hz hs
  have h1 : ringslice_strcmp v1 str = .ok x := by
    rw [strcmp_eq hv1, hstr]; exact hx
  exact ⟨x, h1, he ▸ h1⟩

/-- Witness of C15: content `"abc"` in a plain view of capacity 4 and in a
wrapped view of capacity 5. -/
theorem C15_strcmp_layout_independent_witness :
    ringslice_strcmp ⟨[97, 98, 99, 100], 4, 0, 3⟩ (c_str [97, 98, 100] []) =
      ringslice_strcmp ⟨[99, 0, 0, 97, 98], 5, 3, 1⟩ (c_str [97, 98, 100] []) :=
  (C15_strcmp_layout_independent ⟨[97, 98, 99, 100], 4, 0, 3⟩ ⟨[99, 0, 0, 97, 98], 5, 3, 1⟩
    (c_str [97, 98, 100] []) (by decide) (by decide) (by decide)).1

/-- C16: each operation, run on the memory behind `me` (the object `*me` and
the bytes of its array), leaves that memory as it was whenever it returns: no
byte of the buffer and no field of the input view is changed by
`ringslice_subslice`, `ringslice_strstr`, `ringslice_subslice_with_suffix`,
`ringslice_len`, `ringslice_is_empty`, `ringslice_nth_byte` or
`ringslice_strcmp`. The value returned is that of the operation as a function
of the input view, and the view returned by each of the first three has the
buffer and the capacity of the input view. -/
theorem C16_operations_keep_memory_and_buffer (char_signed : Bool) (fuel : Nat)
    (me : ringslice_t) (n rel_first rel_last from_idx : Int) (str : List Nat) :
    (∀ r m', (ringslice_subslice_st rel_first rel_last).run me = .ok (r, m') →
      m' = me ∧ ringslice_subslice me rel_first rel_last = .ok r ∧
      r.buf = me.buf ∧ r.buf_size = me.buf_size) ∧
    (∀ r m', (ringslice_strstr_st char_signed fuel str).run me = .ok (r, m') →
      m' = me ∧ ringslice_strstr char_signed fuel me str = .ok r ∧
      r.buf = me.buf ∧ r.buf_size = me.buf_size) ∧
    (∀ r m', (ringslice_subslice_with_suffix_st char_signed fuel from_idx str).run me =
        .ok (r, m') →
      m' = me ∧ ringslice_subslice_with_suffix char_signed fuel me from_idx str = .ok r ∧
      r.buf = me.buf ∧ r.buf_size = me.buf_size) ∧
    (∀ x m', ringslice_len_st.run me = .ok (x, m') → m' = me ∧ ringslice_len me = x) ∧
    (∀ x m', ringslice_is_empty_st.run me = .ok (x, m') →
      m' = me ∧ ringslice_is_empty me = x) ∧
    (∀ x m', (ringslice_nth_byte_st n).run me = .ok (x, m') →
      m' = me ∧ ringslice_nth_byte me n = .ok x) ∧
    (∀ x m', (ringslice_strcmp_st str).run me = .ok (x, m') →
      m' = me ∧ ringslice_strcmp me str = .ok x) := by
  refine ⟨?_, ?_, ?_, ?_, ?_, ?_, ?_⟩
  · intro r m' h
    rw [ringslice_subslice_st_run] at h
    obtain ⟨h1, h2⟩ := unchanged_ok h
    exact ⟨h1, h2, subslice_frame h2⟩
  · intro r m' h
    rw [ringslice_strstr_st_run] at h
    obtain ⟨h1, h2⟩ := unchanged_ok h
    exact ⟨h1, h2, strstr_frame h2⟩
  · intro r m' h
    rw [ringslice_subslice_with_suffix_st_run] at h
    obtain ⟨h1, h2⟩ := unchanged_ok h
    exact ⟨h1, h2, suffix_frame h2⟩
  · intro x m' h
    rw [ringslice_len_st_run] at h
    cases h
    exact ⟨rfl, rfl⟩
  · intro x m' h
    rw [ringslice_is_empty_st_run] at h
    cases h
    exact ⟨rfl, rfl⟩
  · intro x m' h
    rw [ringslice_nth_byte_st_run] at h
    exact unchanged_ok h
  · intro x m' h
    rw [ringslice_strcmp_st_run] at h
    exact unchanged_ok h

/-- Witness of C16: the search for `"defg"` in the wrapped view with content
`"abcdefghi"` of `test.c`, run on the memory behind the view. -/
theorem C16_operations_keep_memory_and_buffer_witness :
    (ringslice_strstr_st true 60 (c_str [100, 101, 102, 103] [])).run
        ⟨[101, 102, 103, 104, 105, 106, 97, 98, 99, 100], 10, 6, 5⟩ =
      .ok (⟨[101, 102, 103, 104, 105, 106, 97, 98, 99, 100], 10, 9, 3⟩,
        ⟨[101, 102, 103, 104, 105, 106, 97, 98, 99, 100], 10, 6, 5⟩) ∧
    (⟨[101, 102, 103, 104, 105, 106, 97, 98, 99, 100], 10, 6, 5⟩ : ringslice_t) =
      ⟨[101, 102, 103, 104, 105, 106, 97, 98, 99, 100], 10, 6, 5⟩ ∧
    ringslice_strstr true 60 ⟨[101, 102, 103, 104, 105, 106, 97, 98, 99, 100], 10, 6, 5⟩
        (c_str [100, 101, 102, 103] []) =
      .ok ⟨[101, 102, 103, 104, 105, 106, 97, 98, 99, 100], 10, 9, 3⟩ ∧
    (⟨[101, 102, 103, 104, 105, 106, 97, 98, 99, 100], 10, 9, 3⟩ : ringslice_t).buf =
      (⟨[101, 102, 103, 104, 105, 106, 97, 98, 99, 100], 10, 6, 5⟩ : ringslice_t).buf ∧
    (⟨[101, 102, 103, 104, 105, 106, 97, 98, 99, 100], 10, 9, 3⟩ : ringslice_t).buf_size =
      (⟨[101, 102, 103, 104, 105, 106, 97, 98, 99, 100], 10, 6, 5⟩ : ringslice_t).buf_size :=
  ⟨rfl, (C16_operations_keep_memory_and_buffer true 60
    ⟨[101, 102, 103, 104, 105, 106, 97, 98, 99, 100], 10, 6, 5⟩ 0 1 6 0
    (c_str [100, 101, 102, 103] [])).2.1
    ⟨[101, 102, 103, 104, 105, 106, 97, 98, 99, 100], 10, 9, 3⟩
    ⟨[101, 102, 103, 104, 105, 106, 97, 98, 99, 100], 10, 6, 5⟩ rfl⟩

/-- C17 as stated fails: in a valid view of capacity `2^30 + 1` with
`first = 0` and `last = 2^30`, all three fields are 32-bit values, and the
sum `buf_size + last = 2^31 + 1` of `ringslice_len` is not; reduced to 32
bits the function gives `-1073741822` where the exact length is `2^30`. -/
theorem C17_len_sum_overflows :
    valid ⟨List.replicate 1073741825 0, 1073741825, 0, 1073741824⟩ ∧
    fits32 (⟨List.replicate 1073741825 0, 1073741825, 0, 1073741824⟩ : ringslice_t).buf_size ∧
    ¬ fits32 ((⟨List.replicate 1073741825 0, 1073741825, 0, 1073741824⟩ : ringslice_t).buf_size
      + (⟨List.replicate 1073741825 0, 1073741825, 0, 1073741824⟩ : ringslice_t).last) ∧
    exact_len ⟨List.replicate 1073741825 0, 1073741825, 0, 1073741824⟩ = 1073741824 ∧
    ringslice_len ⟨List.replicate 1073741825 0, 1073741825, 0, 1073741824⟩ = -1073741822 := by
  refine ⟨?_, ?_, ?_, ?_, ?_⟩
  · refine ⟨by decide, by decide, by decide, by decide, by decide, ?_⟩
    show (((List.replicate 1073741825 0).length : Nat) : Int) = 1073741825
    rw [List.length_replicate]
    rfl
  · show fits32 1073741825
    decide
  · show ¬ fits32 (1073741825 + 1073741824)
    decide
  · show ((1073741825 : Int) + 1073741824 - 0).tmod 1073741825 = 1073741824
    decide
  · show (wrap32 (wrap32 ((1073741825 : Int) + 1073741824) - 0)).tmod 1073741825 = -1073741822
    decide

/-- C17, amended: for a capacity `0 < N ≤ 2^30` and offsets
`0 ≤ first, last < N`, the sums `buf_size + last` and
`buf_size + last - first` of `ringslice_len`, `first + n` of
`ringslice_nth_byte` for `0 ≤ n < length`, and `first + rel_first`,
`first + rel_last` of `ringslice_subslice` for
`0 ≤ rel_first ≤ rel_last ≤ length` are 32-bit values, and the results
computed in 32 bits are the exact ones. -/
theorem C17_offsets_fit_32_bits (v : ringslice_t)
    (hN : 0 < v.buf_size) (hN30 : v.buf_size ≤ 1073741824)
    (hf0 : 0 ≤ v.first) (hf1 : v.first < v.buf_size)
    (hl0 : 0 ≤ v.last) (hl1 : v.last < v.buf_size) :
    fits32 (v.buf_size + v.last) ∧ fits32 (v.buf_size + v.last - v.first) ∧
    ringslice_len v = exact_len v ∧
    (∀ n, 0 ≤ n → n < exact_len v →
      fits32 (v.first + n) ∧ nth_byte_idx v n = (v.first + n).tmod v.buf_size) ∧
    (∀ rel_first rel_last, 0 ≤ rel_first → rel_first ≤ rel_last →
      rel_last ≤ exact_len v →
      fits32 (v.first + rel_first) ∧ fits32 (v.first + rel_last) ∧
      subslice_offsets32 v rel_first rel_last =
        ((v.first + rel_first).tmod v.buf_size, (v.first + rel_last).tmod v.buf_size)) := by
  have h1 : fits32 (v.buf_size + v.last) := by unfold fits32; omega
  have h2 : fits32 (v.buf_size + v.last - v.first) := by unfold fits32; omega
  have hlen : exact_len v =
      if v.buf_size + v.last - v.first < v.buf_size then v.buf_size + v.last - v.first
      else v.buf_size + v.last - v.first - v.buf_size :=
    tmod_wrap hN (by omega) (by omega)
  have hlen1 : exact_len v < v.buf_size := by rw [hlen]; split <;> omega
  refine ⟨h1, h2, ?_, ?_, ?_⟩
  · unfold ringslice_len exact_len
    rw [wrap32_of_fits h1, wrap32_of_fits h2]
  · intro n hn0 hn1
    have h3 : fits32 (v.first + n) := by unfold fits32; omega
    refine ⟨h3, ?_⟩
    unfold nth_byte_idx
    rw [wrap32_of_fits h3]
  · intro a b ha hab hb
    have h3 : fits32 (v.first + a) := by unfold fits32; omega
    have h4 : fits32 (v.first + b) := by unfold fits32; omega
    refine ⟨h3, h4, ?_⟩
    unfold subslice_offsets32
    rw [wrap32_of_fits h3, wrap32_of_fits h4]

/-- Witness of C17: the wrapped view of capacity 10 of `test.c`. -/
theorem C17_offsets_fit_32_bits_witness :
    fits32 ((10 : Int) + 5) ∧
    ringslice_len ⟨[101, 102, 103, 104, 105, 106, 97, 98, 99, 100], 10, 6, 5⟩ =
      exact_len ⟨[101, 102, 103, 104, 105, 106, 97, 98, 99, 100], 10, 6, 5⟩ := by
  have h := C17_offsets_fit_32_bits ⟨[101, 102, 103, 104, 105, 106, 97, 98, 99, 100], 10, 6, 5⟩
    (by decide) (by decide) (by decide) (by decide) (by decide) (by decide)
  exact ⟨h.1, h.2.2.1⟩

/-- C18: for a valid view `v` and a string `s` that is a prefix of the
content of `v`, `ringslice_prefixcmp` returns `0`, whatever follows in `v`;
for any string its result is a value, and that value is non-zero only if the
content and `s` differ at some index before either ends, or the content is a
proper prefix of `s` (the view is exhausted before the string). -/
theorem C18_prefixcmp (v : ringslice_t) (s rest : List Nat)
    (hv : valid v) (hs : 0 ∉ s) :
    (s <+: content v → ringslice_prefixcmp v (c_str s rest) = .ok 0) ∧
    (∃ x : Int, ringslice_prefixcmp v (c_str s rest) = .ok x ∧
      (x ≠ 0 →
        (∃ i, ∃ (h1 : i < (content v).length) (h2 : i < s.length),
          (content v).take i = s.take i ∧ (content v)[i] ≠ s[i]) ∨
        (content v <+: s ∧ (content v).length < s.length))) := by
  obtain ⟨x, hx, h1, h2⟩ := prefixcmp_list_cases rest s (content v) hs
  refine ⟨?_, x, ?_, h2⟩
  · intro hp
    rw [prefixcmp_eq hv, hx, h1 hp]
  · rw [prefixcmp_eq hv]; exact hx

/-- Witness of C18: `"Hello W"` against the wrapped view with content
`"Hello World!"` of `test.c`. -/
theorem C18_prefixcmp_witness :
    ringslice_prefixcmp
      ⟨[111, 32, 87, 111, 114, 108, 100, 33, 1, 1, 1, 72, 101, 108, 108], 15, 11, 8⟩
      (c_str [72, 101, 108, 108, 111, 32, 87] []) = .ok 0 :=
  (C18_prefixcmp ⟨[111, 32, 87, 111, 114, 108, 100, 33, 1, 1, 1, 72, 101, 108, 108], 15, 11, 8⟩
    [72, 101, 108, 108, 111, 32, 87] [] (by decide) (by decide)).1 (by decide)

/-- C20, at `rel_first = -1`, `rel_last = 0`: the three checks 101, 102 and
103 of `ringslice_subslice` pass (`-1 ≤ 0`, `-1 < 2`, `0 ≤ 2`), and the view
returned for the valid view with `first = 0` and content `"ab"` has
`first = (0 + -1) % 3 = -1`, outside `[0, capacity)`. -/
theorem C20_subslice_negative_rel_first :
    valid ⟨[97, 98, 99], 3, 0, 2⟩ ∧ ringslice_len ⟨[97, 98, 99], 3, 0, 2⟩ = 2 ∧
    ringslice_subslice ⟨[97, 98, 99], 3, 0, 2⟩ (-1) 0 = .ok ⟨[97, 98, 99], 3, -1, 0⟩ ∧
    ¬ valid ⟨[97, 98, 99], 3, -1, 0⟩ ∧
    ¬ (0 ≤ (⟨[97, 98, 99], 3, -1, 0⟩ : ringslice_t).first) :=
  ⟨by decide, by decide, rfl, by decide, by decide⟩

/-- C21: for a valid view and a terminated string, every iteration of the
loop of `ringslice_strstr`, from the state with logical start `i` of the
partial match and counter `k` (`i + k` is the scan position), either ends the
loop or leads to a state `(i', k')` that is strictly greater in the
lexicographic order and still bounded by the length of the view; so the loop
returns within `(length + 1) * (|s| + 1) + 1` iterations, and
`ringslice_strstr` returns a view. So it is whether plain `char` is signed or
not. -/
theorem C21_strstr_terminates (char_signed : Bool) (v : ringslice_t) (s rest : List Nat)
    (hv : valid v) (hs : 0 ∉ s) :
    (∀ i k, i + k ≤ (content v).length → k ≤ s.length →
      (∃ b, ∀ fuel, strstr_loop char_signed v (c_str s rest) (fuel + 1) (phys v (i + k)) (k : Int) =
          .ok (phys v (i + k), (k : Int), b)) ∨
      (∃ i' k', (i < i' ∨ (i = i' ∧ k < k')) ∧
        i' + k' ≤ (content v).length ∧ k' ≤ s.length ∧
        ∀ fuel, strstr_loop char_signed v (c_str s rest) (fuel + 1) (phys v (i + k)) (k : Int) =
          strstr_loop char_signed v (c_str s rest) fuel (phys v (i' + k')) (k' : Int))) ∧
    (∀ fuel, ((content v).length + 1) * (s.length + 1) < fuel →
      ∃ res, strstr_loop char_signed v (c_str s rest) fuel v.first 0 = .ok res) ∧
    (∀ fuel, ((content v).length + 1) * (s.length + 1) < fuel →
      ∃ r, ringslice_strstr char_signed fuel v (c_str s rest) = .ok r) := by
  refine ⟨fun i k hik hk => strstr_iteration char_signed hv rest hs hik hk, ?_, ?_⟩
  · intro fuel hf
    obtain ⟨p, k', b, _, _, h⟩ := strstr_loop_returns char_signed hv rest hs fuel 0 0 (Nat.zero_le _)
      (Nat.zero_le _) (by omega)
    simp only [Nat.add_zero, phys_zero hv, Nat.cast_zero] at h
    exact ⟨_, h⟩
  · intro fuel hf
    obtain ⟨r, hr, _⟩ := strstr_returns_valid char_signed hv rest hs hf
    exact ⟨r, hr⟩

/-- Witness of C21: the wrapped view of `test.c` in which a part of the
string precedes the occurrence, so that the scan moves backwards. -/
theorem C21_strstr_terminates_witness :
    ∃ r, ringslice_strstr true 60 ⟨[102, 103, 104, 105, 106, 97, 98, 102, 103, 104], 10, 6, 5⟩
      (c_str [102, 103, 104, 105] []) = .ok r :=
  (C21_strstr_terminates true ⟨[102, 103, 104, 105, 106, 97, 98, 102, 103, 104], 10, 6, 5⟩
    [102, 103, 104, 105] [] (by decide) (by decide)).2.2 60 (by decide)

/-- C22 as stated fails: in the wrapped view with content `"abac"`, searched
for `"abc"`, the mismatch at comparison position `k = 2` comes with the scan
at logical position `p = 2` (offset 1). The retreat
`ringslice_ptr_decrement_wrap_around(first_ptr, cmp_pos, ..)` moves back by
`k = 2` bytes, to offset 4 (logical position 0), not by `k - 1` to logical
position 1 (offset 0); the advance by one byte then arrives at logical
position 1 (offset 0). -/
theorem C22_retreat_is_by_k :
    valid ⟨[98, 97, 99, 0, 97], 5, 4, 3⟩ ∧
    content ⟨[98, 97, 99, 0, 97], 5, 4, 3⟩ = [97, 98, 97, 99] ∧
    phys ⟨[98, 97, 99, 0, 97], 5, 4, 3⟩ 2 = 1 ∧
    ringslice_ptr_decrement_wrap_around 1 2 0 5 = .ok 4 ∧
    phys ⟨[98, 97, 99, 0, 97], 5, 4, 3⟩ (2 - 2) = 4 ∧
    phys ⟨[98, 97, 99, 0, 97], 5, 4, 3⟩ (2 - (2 - 1)) = 0 ∧
    ringslice_ptr_increment_wrap_around 4 1 0 5 = .ok 0 ∧
    ¬ (ringslice_ptr_decrement_wrap_around (phys ⟨[98, 97, 99, 0, 97], 5, 4, 3⟩ 2) 2 0
        (⟨[98, 97, 99, 0, 97], 5, 4, 3⟩ : ringslice_t).buf_size =
      .ok (phys ⟨[98, 97, 99, 0, 97], 5, 4, 3⟩ (2 - (2 - 1)))) := by
  have hd : ringslice_ptr_decrement_wrap_around 1 2 0 5 = .ok 4 := rfl
  refine ⟨by decide, by decide, by decide, hd, by decide, by decide, rfl, ?_⟩
  intro h
  have e1 : phys ⟨[98, 97, 99, 0, 97], 5, 4, 3⟩ 2 = 1 := by decide
  have e2 : phys ⟨[98, 97, 99, 0, 97], 5, 4, 3⟩ (2 - (2 - 1)) = 0 := by decide
  rw [e1, e2] at h
  have h2 : ringslice_ptr_decrement_wrap_around 1 2 0 5 = .ok 0 := h
  rw [hd] at h2
  exact absurd (Except.ok.inj h2) (by decide)

/-- C22, amended: in the scan of `ringslice_strstr`, on a mismatch at
comparison position `k > 0` with the scan at logical position `p` (the byte
of the view is not equal to the `char` of the string, as it is whenever the
two bytes differ), the retreat moves the scan
position back by `k` bytes, to `p - k`, the start of the partial match; the
counter is reset to 0 and the scan then advances one byte, so that the loop
goes on at `p - (k - 1)` with counter 0. -/
theorem C22_mismatch_rewind (char_signed : Bool) (v : ringslice_t) (s rest : List Nat)
    (p k : Nat)
    (hv : valid v) (hs : 0 ∉ s) (hk0 : 0 < k) (hkp : k ≤ p)
    (hp : p < (content v).length) (hk : k < s.length)
    (hneq : ((content v)[p] : Int) ≠ char_val char_signed s[k]) :
    ringslice_ptr_decrement_wrap_around (phys v p) (k : Int) 0 v.buf_size =
      .ok (phys v (p - k)) ∧
    ringslice_ptr_increment_wrap_around (phys v (p - k)) 1 0 v.buf_size =
      .ok (phys v (p - (k - 1))) ∧
    (∀ fuel, strstr_loop char_signed v (c_str s rest) (fuel + 1) (phys v p) (k : Int) =
      strstr_loop char_signed v (c_str s rest) fuel (phys v (p - (k - 1))) 0) := by
  have e1 : p - (k - 1) = p - k + 1 := by omega
  have e2 : p - k + k = p := by omega
  refine ⟨decrement_phys hv (le_of_lt hp) hkp, ?_, ?_⟩
  · rw [e1]
    exact increment_phys hv (show p - k < (content v).length by omega)
  · intro fuel
    have hlt : p - k + k < (content v).length := by omega
    have hneq2 : ((content v)[p - k + k] : Int) ≠ char_val char_signed s[k] := by
      simpa only [e2] using hneq
    have h := strstr_loop_mismatch char_signed hv rest hs fuel hlt hk hneq2
    simp only [e2, Nat.add_zero, Nat.cast_zero] at h
    rw [e1]
    exact h

/-- Witness of C22: the mismatch at `p = 2`, `k = 2` in the wrapped view with
content `"abac"`, searched for `"abc"`. -/
theorem C22_mismatch_rewind_witness :
    ringslice_ptr_decrement_wrap_around (phys ⟨[98, 97, 99, 0, 97], 5, 4, 3⟩ 2) ((2 : Nat) : Int) 0
        (⟨[98, 97, 99, 0, 97], 5, 4, 3⟩ : ringslice_t).buf_size =
      .ok (phys ⟨[98, 97, 99, 0, 97], 5, 4, 3⟩ (2 - 2)) :=
  (C22_mismatch_rewind false ⟨[98, 97, 99, 0, 97], 5, 4, 3⟩ [97, 98, 99] [] 2 2
    (by decide) (by decide) (by decide) (by decide) (by decide) (by decide) (by decide)).1

/-- C24: for a capacity `N > 0`, an offset `0 ≤ c < N` and `0 ≤ k ≤ N`,
`ringslice_ptr_increment_wrap_around` yields `(c + k) mod N` and
`ringslice_ptr_decrement_wrap_around` yields `(c - k) mod N`, with the
non-negative modulus; both lie in `[0, N)`, so that the checks 999 and 998
pass, and decrementing by `k` the result of incrementing by `k` gives `c`. -/
theorem C24_wrap_around_helpers (N c k : Int)
    (hN : 0 < N) (hc0 : 0 ≤ c) (hc1 : c < N) (hk0 : 0 ≤ k) (hk1 : k ≤ N) :
    ringslice_ptr_increment_wrap_around c k 0 N = .ok ((c + k) % N) ∧
    ringslice_ptr_decrement_wrap_around c k 0 N = .ok ((c - k) % N) ∧
    0 ≤ (c + k) % N ∧ (c + k) % N < N ∧ 0 ≤ (c - k) % N ∧ (c - k) % N < N ∧
    ringslice_ptr_decrement_wrap_around ((c + k) % N) k 0 N = .ok c := by
  have e1 : (c + k) % N = if c + k < N then c + k else c + k - N :=
    emod_wrap hN (by omega) (by omega)
  have e2 : (c - k) % N = if 0 ≤ c - k then c - k else N + (c - k) := by
    split
    · exact Int.emod_eq_of_lt (by omega) (by omega)
    · rw [emod_neg_wrap (by omega) (by omega)]
      ring
  have r1 : 0 ≤ (c + k) % N ∧ (c + k) % N < N := by
    rw [e1]; split <;> omega
  have r2 : 0 ≤ (c - k) % N ∧ (c - k) % N < N := by
    rw [e2]; split <;> omega
  refine ⟨?_, ?_, r1.1, r1.2, r2.1, r2.2, ?_⟩
  · rw [increment_ok hc0 hc1 hk0 hk1, e1]
  · rw [decrement_ok hc0 hc1 hk0 hk1, e2]
  · rw [decrement_ok r1.1 r1.2 hk0 hk1]
    congr 1
    rw [e1]
    split <;> split <;> omega

/-- Witness of C24: capacity 10, offset 7, moved by 10 and by 4. -/
theorem C24_wrap_around_helpers_witness :
    ringslice_ptr_increment_wrap_around 7 4 0 10 = .ok ((7 + 4) % 10) ∧
    ringslice_ptr_decrement_wrap_around 7 10 0 10 = .ok ((7 - 10) % 10) :=
  ⟨(C24_wrap_around_helpers 10 7 4 (by decide) (by decide) (by decide) (by decide)
      (by decide)).1,
   (C24_wrap_around_helpers 10 7 10 (by decide) (by decide) (by decide) (by decide)
      (by decide)).2.1⟩

end Ringslice
